import Mathlib

/-!
Verification development for the `sanitize-html` rule-driven HTML sanitizer.

The TypeScript sources are embedded shallowly:

* strings are `List Char` (`Str`), with JavaScript-style `trim`, `split`,
  `join` and `slice` reimplemented on lists;
* the htmlparser2 tree is the rose tree `Node`; the mutating tree adapter
  becomes explicit list surgery on sibling lists;
* the walker (`walkNode` / `walkElement` in `src/lib/walker.ts`) becomes the
  function `walkList`, which returns the list of replacement nodes for every
  input node (an empty replacement models `detachNode`, the child list of an
  element models the `unwrapInParent` splice) inside `Option`
  (`none` models a thrown sanitization error);
* every error handler of `src/lib/handlers` is a function returning its
  proceed flags and adjusted collections explicitly.
-/

set_option linter.unusedVariables false

/-- Characters of a JavaScript string. -/
abbrev Str := List Char

/-- JavaScript `String.prototype.trim`: drop whitespace from both ends. -/
def jsTrim (s : Str) : Str :=
  ((s.dropWhile Char.isWhitespace).reverse.dropWhile Char.isWhitespace).reverse

/-- Test whether `sep` is a leading segment of `s`. -/
def leadsWith : Str → Str → Bool
  | [], _ => true
  | _ :: _, [] => false
  | a :: as, b :: bs => a == b && leadsWith as bs

/-- Worker for `jsSplit` with a nonempty separator.  The `Nat` argument
counts separator characters that still have to be consumed after a match,
which keeps the recursion structural on the string. -/
def splitGo (sep : Str) : Str → Str → Nat → List Str
  | [], acc, _ => [acc.reverse]
  | c :: rest, acc, 0 =>
      if leadsWith sep (c :: rest) then
        acc.reverse :: splitGo sep rest [] (sep.length - 1)
      else
        splitGo sep rest (c :: acc) 0
  | _ :: rest, acc, k + 1 => splitGo sep rest acc k

/-- JavaScript `s.split(sep)`: splits on every occurrence of a nonempty
separator scanning left to right; an empty separator splits into the single
characters (and the empty string into `[]`). -/
def jsSplit (s sep : Str) : List Str :=
  if sep == [] then s.map (fun c => [c]) else splitGo sep s [] 0

/-- JavaScript `xs.join(sep)`. -/
def jsJoin (sep : Str) (xs : List Str) : Str :=
  List.intercalate sep xs

/-- JavaScript `s.slice(0, bound)` where `bound` may be `undefined`. -/
def jsSlice {α : Type} (l : List α) (bound : Option Nat) : List α :=
  match bound with
  | some n => l.take n
  | none => l

/-- The comparator universe of `src/types/comparators.ts`: a runtime value
used as a matcher is a string, a callback, a regular expression (embedded as
its test function), an array of strings, a boolean, or some value outside the
declared union. -/
inductive Comparator where
  | strVal (s : Str)
  | fnVal (f : Str → Bool)
  | regexVal (test : Str → Bool)
  | listVal (l : List Str)
  | boolVal (b : Bool)
  | outside

/-- The string `"*"`. -/
def starStr : Str := ['*']

/-- Embeds `matchComparator` of `src/lib/helpers.ts`.  The source tests, in
order: `cmp === "*"`, callback, regexp, exact string, array membership,
`true` (empty value), `false` (nonempty value), and finally returns `false`.
The constructors are disjoint, so only the wildcard/exact-string overlap
needs the explicit inner test. -/
def matchComparator : Comparator → Str → Bool
  | .strVal s, value => if s == starStr then true else value == s
  | .fnVal f, value => f value
  | .regexVal t, value => t value
  | .listVal l, value => l.contains value
  | .boolVal true, value => value == []
  | .boolVal false, value => value != []
  | .outside, _ => false

/-- Loop of `parseRecord` over the trimmed nonempty entries. -/
def parseRecordLoop (pairSep : Str) : List Str → List (Str × Str)
  | [] => []
  | e :: rest =>
      match jsSplit e pairSep with
      | [a, b] =>
          let key := jsTrim a
          if key == [] then parseRecordLoop pairSep rest
          else
            let val := jsTrim b
            if val == [] then parseRecordLoop pairSep rest
            else (key, val) :: parseRecordLoop pairSep rest
      | _ => parseRecordLoop pairSep rest

/-- Embeds `parseRecord` of `src/lib/helpers.ts`. -/
def parseRecord (input entrySep pairSep : Str) : List (Str × Str) :=
  let trimmed := jsTrim input
  if trimmed == [] then []
  else
    parseRecordLoop pairSep
      (((jsSplit trimmed entrySep).map jsTrim).filter (fun t => t != []))

/-- First-occurrence deduplication, the order produced by `new Set`. -/
def firstDedup (seen : List Str) : List Str → List Str
  | [] => []
  | x :: xs =>
      if seen.contains x then firstDedup seen xs
      else x :: firstDedup (x :: seen) xs

/-- Embeds `parseSet` of `src/lib/helpers.ts`. -/
def parseSet (input delimiter : Str) : List Str :=
  let trimmed := jsTrim input
  if trimmed == [] then []
  else
    firstDedup []
      (((jsSplit trimmed delimiter).map jsTrim).filter (fun t => t != []))

/-- Ordered attribute map of an element (`element.attribs`): insertion
order is the list order, keys are unique in every tree which came from the
parser. -/
abbrev AttrMap := List (Str × Str)

/-- First-occurrence lookup in an ordered string-keyed map. -/
def lookupStr {α : Type} : List (Str × α) → Str → Option α
  | [], _ => none
  | (k', v) :: rest, k => if k' == k then some v else lookupStr rest k

/-- JavaScript `obj[k] = v`: overwrite in place, append if missing. -/
def aset : AttrMap → Str → Str → AttrMap
  | [], k, v => [(k, v)]
  | (k', v') :: rest, k, v =>
      if k' == k then (k', v) :: rest else (k', v') :: aset rest k v

/-- JavaScript `delete obj[k]`. -/
def adel : AttrMap → Str → AttrMap
  | [], _ => []
  | (k', v') :: rest, k => if k' == k then rest else (k', v') :: adel rest k

/-- The htmlparser2 tree consumed by the sanitizer: elements with a tag, an
ordered attribute map and children, plus comment and text leaves. -/
inductive Node where
  | element (tag : Str) (attribs : AttrMap) (children : List Node)
  | comment (content : Str)
  | text (content : Str)

/-- Child list of a node (non-elements have none). -/
def Node.childList : Node → List Node
  | .element _ _ cs => cs
  | _ => []

mutual
/-- Structural equality of nodes, standing in for the object identity the
tree adapter uses to locate reference nodes. -/
def nodeEqb : Node → Node → Bool
  | .element t1 a1 c1, .element t2 a2 c2 =>
      t1 == t2 && a1 == a2 && nodeListEqb c1 c2
  | .comment a, .comment b => a == b
  | .text a, .text b => a == b
  | _, _ => false

/-- Pointwise `nodeEqb` on lists. -/
def nodeListEqb : List Node → List Node → Bool
  | [], [] => true
  | x :: xs, y :: ys => nodeEqb x y && nodeListEqb xs ys
  | _, _ => false
end

/-- The adapter's `insertBefore(parent, newNode, ref)` restricted to the
parent's child list: insert before the first occurrence of `ref`. -/
def insertBeforeL (sibs : List Node) (newNode ref : Node) : List Node :=
  match sibs with
  | [] => [newNode]
  | s :: rest =>
      if nodeEqb s ref then newNode :: s :: rest
      else s :: insertBeforeL rest newNode ref

/-- The adapter's `detachNode` restricted to the parent's child list:
remove the first occurrence. -/
def detachL (sibs : List Node) (nd : Node) : List Node :=
  match sibs with
  | [] => []
  | s :: rest => if nodeEqb s nd then rest else s :: detachL rest nd

/-- Embeds `unwrapInParent` of `src/lib/helpers.ts`.  The parent is given as
the sibling context `(before, after)` around the element, or `none` when the
element has no parent.  The result is the parent's new child list (`none`
when there is no parent and the element is merely detached).  The source
checks the empty-child case first, then the missing parent, then inserts
each child before the captured `nextSibling` (appending when there is none)
and finally detaches the element. -/
def unwrapInParent (e : Node) (parentCtx : Option (List Node × List Node)) :
    Option (List Node) :=
  if e.childList.isEmpty then
    match parentCtx with
    | none => none
    | some (pre, post) => some (pre ++ post)
  else
    match parentCtx with
    | none => none
    | some (pre, post) =>
        let next := post.head?
        let sibs0 := pre ++ [e] ++ post
        let sibs1 := e.childList.foldl
          (fun acc c =>
            match next with
            | some nx => insertBeforeL acc c nx
            | none => acc ++ [c])
          sibs0
        some (detachL sibs1 e)

/-- Strategy enum for tag errors (`TagErrorHandlingMode`). -/
inductive TagErrorMode where
  | discardElement
  | unwrapElement
  | throwError
deriving DecidableEq

/-- Strategy enum for children-count errors (`TagChildrenErrorHandlingMode`). -/
inductive TagChildrenErrorMode where
  | discardElement
  | discardFirsts
  | discardLasts
  | throwError
deriving DecidableEq

/-- Strategy enum for nesting errors (`TagNestingErrorHandlingMode`). -/
inductive TagNestingErrorMode where
  | discardElement
  | throwError
deriving DecidableEq

/-- Strategy enum for attribute errors: `"discardAttribute"` or any tag-level
strategy (`TagAttributeErrorHandlingMode`). -/
inductive AttrErrorMode where
  | discardAttribute
  | tagLevel (m : TagErrorMode)
deriving DecidableEq

/-- Strategy enum for attribute-value errors: `"applyDefaultValue"` or any
attribute-level strategy (`TagAttributeValueErrorHandlingMode`). -/
inductive AttrValueErrorMode where
  | applyDefaultValue
  | attrLevel (m : AttrErrorMode)
deriving DecidableEq

/-- Strategy enum for too-long values (`TagAttributeValueTooLongErrorHandlingMode`). -/
inductive ValueTooLongErrorMode where
  | trimExcess
  | valueLevel (m : AttrValueErrorMode)
deriving DecidableEq

/-- Strategy enum for set-value errors (`TagAttributeSetValueErrorHandlingMode`). -/
inductive SetValueErrorMode where
  | dropValue
  | valueLevel (m : AttrValueErrorMode)
deriving DecidableEq

/-- Strategy enum for record-value errors (`TagAttributeRecordValueErrorHandlingMode`). -/
inductive RecordValueErrorMode where
  | dropPair
  | valueLevel (m : AttrValueErrorMode)
deriving DecidableEq

/-- Strategy enum for oversized collections
(`TagAttributeCollectionValueTooManyErrorHandlingMode`). -/
inductive TooManyErrorMode where
  | dropExtra
  | valueLevel (m : AttrValueErrorMode)
deriving DecidableEq

/-- Strategy enum for duplicate record keys
(`TagAttributeRecordValueDuplicateErrorHandlingMode`). -/
inductive DuplicateErrorMode where
  | dropDuplicates
  | keepDuplicates
  | keepFirst
  | keepLast
  | valueLevel (m : AttrValueErrorMode)
deriving DecidableEq

/-- The `ErrorHandling` record of `src/types/sanitizer.ts`; every slot is
optional and an unset slot reaches the `default` branch of its handler.
The slot for `errorHandling.attribute` is called `attr` here because
`attribute` is a Lean keyword. -/
structure ErrorHandling where
  tag : Option TagErrorMode := none
  tagChildren : Option TagChildrenErrorMode := none
  tagNesting : Option TagNestingErrorMode := none
  attr : Option AttrErrorMode := none
  attributeValue : Option AttrValueErrorMode := none
  attributeValueTooLong : Option ValueTooLongErrorMode := none
  attributeSetValue : Option SetValueErrorMode := none
  attributeRecordValue : Option RecordValueErrorMode := none
  attributeCollectionValueTooMany : Option TooManyErrorMode := none
  attributeRecordValueDuplicate : Option DuplicateErrorMode := none

/-- Mode-specific payload of an attribute rule (`TagAttributeValueRule`,
tagged by `mode`). -/
inductive AttrShape where
  | simple (value : Comparator)
  | set (delimiter : Str) (maxEntries : Option Nat) (values : Comparator)
  | record (entrySeparator keyValueSeparator : Str) (maxEntries : Option Nat)
      (values : List (Str × Comparator))

/-- An attribute rule: shape plus the shared `defaultValue`, `maxLength`,
`required` fields. -/
structure AttrRule where
  shape : AttrShape
  defaultValue : Option Str := none
  maxLength : Option Nat := none
  required : Bool := false

/-- The `maxEntries` field of a collection rule. -/
def AttrRule.maxEntries (r : AttrRule) : Option Nat :=
  match r.shape with
  | .simple _ => none
  | .set _ me _ => me
  | .record _ _ me _ => me

/-- The `limits` record of a tag rule or of `topLevelLimits`. -/
structure TagLimits where
  children : Option Nat := none
  nesting : Option Nat := none

/-- A tag rule (`TagRule`). -/
structure TagRule where
  attributes : Option (List (Str × AttrRule)) := none
  limits : TagLimits := {}

/-- The `SanitizerOptions` record. -/
structure SanitizerOptions where
  preserveComments : Bool := false
  tags : List (Str × TagRule) := []
  topLevelLimits : TagLimits := {}
  errorHandling : ErrorHandling := {}

/-- The mutable walker state (`SanitizerState`). -/
structure SanitizerState where
  rootNesting : Nat
  tagNesting : List (Str × Nat)

/-- JavaScript truthiness of an optional numeric limit: present and
nonzero. -/
def truthy : Option Nat → Bool
  | some n => n != 0
  | none => false

/-- Outcome of an attribute-level handler or sanitizer: either the element
was removed and replaced by `repl` in its parent (`false` return with a tree
mutation in the source), or processing continues with the updated attribute
map (`true` return). -/
inductive AttrOutcome where
  | gone (repl : List Node)
  | cont (attribs : AttrMap)

/-- Embeds `handleTagError` of `src/lib/handlers/direct.ts`.  The element is
represented by its child list: `discardElement` replaces it by nothing,
`unwrapElement` replaces it by its children (the `unwrapInParent` splice;
inside the walker a parent always exists), `throwError` and an unset mode
throw. -/
def handleTagError (children : List Node) (mode : Option TagErrorMode) :
    Option (List Node) :=
  match mode with
  | some .discardElement => some []
  | some .unwrapElement => some children
  | some .throwError => none
  | none => none

/-- Embeds `handleTagAttributeError`: `discardAttribute` deletes the
attribute and proceeds, anything else cascades to the tag level. -/
def handleTagAttributeError (children : List Node) (attribs : AttrMap)
    (k : Str) (mode : Option AttrErrorMode) : Option AttrOutcome :=
  match mode with
  | some .discardAttribute => some (.cont (adel attribs k))
  | some (.tagLevel m) => (handleTagError children (some m)).map .gone
  | none => (handleTagError children none).map .gone

/-- Embeds `handleTagAttributeValueError`: `applyDefaultValue` writes the
rule's `defaultValue` when that is truthy (a nonempty string) and otherwise
deletes the attribute, returning `true`; anything else cascades to the
attribute level. -/
def handleTagAttributeValueError (children : List Node) (attribs : AttrMap)
    (k : Str) (rule : AttrRule) (mode : Option AttrValueErrorMode) :
    Option AttrOutcome :=
  match mode with
  | some .applyDefaultValue =>
      match rule.defaultValue with
      | some d =>
          if d == [] then some (.cont (adel attribs k))
          else some (.cont (aset attribs k d))
      | none => some (.cont (adel attribs k))
  | some (.attrLevel m) => handleTagAttributeError children attribs k (some m)
  | none => handleTagAttributeError children attribs k none

/-- Embeds `handleTagAttributeValueTooLongError`: `trimExcess` truncates the
value to `maxLength` in place, anything else cascades. -/
def handleTagAttributeValueTooLongError (children : List Node)
    (attribs : AttrMap) (k value : Str) (rule : AttrRule)
    (mode : Option ValueTooLongErrorMode) : Option AttrOutcome :=
  match mode with
  | some .trimExcess => some (.cont (aset attribs k (jsSlice value rule.maxLength)))
  | some (.valueLevel m) =>
      handleTagAttributeValueError children attribs k rule (some m)
  | none => handleTagAttributeValueError children attribs k rule none

/-- Embeds `handleTagAttributeSetValueError`: `dropValue` keeps going
without emitting the offending token, anything else cascades. -/
def handleTagAttributeSetValueError (children : List Node) (attribs : AttrMap)
    (k : Str) (rule : AttrRule) (mode : Option SetValueErrorMode) :
    Option AttrOutcome :=
  match mode with
  | some .dropValue => some (.cont attribs)
  | some (.valueLevel m) =>
      handleTagAttributeValueError children attribs k rule (some m)
  | none => handleTagAttributeValueError children attribs k rule none

/-- Embeds `handleTagAttributeRecordValueError`: `dropPair` keeps going
without emitting the offending pair, anything else cascades. -/
def handleTagAttributeRecordValueError (children : List Node)
    (attribs : AttrMap) (k : Str) (rule : AttrRule)
    (mode : Option RecordValueErrorMode) : Option AttrOutcome :=
  match mode with
  | some .dropPair => some (.cont attribs)
  | some (.valueLevel m) =>
      handleTagAttributeValueError children attribs k rule (some m)
  | none => handleTagAttributeValueError children attribs k rule none

/-- Outcome of an indirect collection handler: the adjusted collection plus
the proceed information. -/
inductive CollOutcome (α : Type) where
  | gone (repl : List Node)
  | cont (attribs : AttrMap) (output : List α)

/-- Embeds `handleTagAttributeCollectionValueTooManyError` of
`src/lib/handlers/indirect.ts`: `dropExtra` slices the collection to
`maxEntries`, anything else cascades and returns the collection unchanged
together with the cascaded proceed flag. -/
def handleTagAttributeCollectionValueTooManyError {α : Type}
    (children : List Node) (attribs : AttrMap) (k : Str)
    (collection : List α) (rule : AttrRule) (mode : Option TooManyErrorMode) :
    Option (CollOutcome α) :=
  match mode with
  | some .dropExtra => some (.cont attribs (jsSlice collection rule.maxEntries))
  | some (.valueLevel m) =>
      match handleTagAttributeValueError children attribs k rule (some m) with
      | none => none
      | some (.gone repl) => some (.gone repl)
      | some (.cont a) => some (.cont a collection)
  | none =>
      match handleTagAttributeValueError children attribs k rule none with
      | none => none
      | some (.gone repl) => some (.gone repl)
      | some (.cont a) => some (.cont a collection)

/-- Outcome of the duplicate-key handler: adjusted record, updated map and
the `localProceed` flag (`globalProceed = false` is the `gone` case,
a throw is `none`). -/
inductive DupOutcome where
  | gone (repl : List Node)
  | cont (attribs : AttrMap) (output : List (Str × Str)) (localProceed : Bool)

/-- Embeds `handleTagAttributeRecordValueDuplicateError`:
`dropDuplicates` removes every entry with the duplicate key (local false),
`keepDuplicates` keeps the record unchanged (local true), `keepFirst` keeps
it unchanged (local false), `keepLast` removes the prior occurrences (local
true); anything else cascades, with both flags set to the cascaded result. -/
def handleTagAttributeRecordValueDuplicateError (children : List Node)
    (attribs : AttrMap) (k dupKey : Str) (output : List (Str × Str))
    (rule : AttrRule) (mode : Option DuplicateErrorMode) : Option DupOutcome :=
  match mode with
  | some .dropDuplicates =>
      some (.cont attribs (output.filter (fun p => p.1 != dupKey)) false)
  | some .keepDuplicates => some (.cont attribs output true)
  | some .keepFirst => some (.cont attribs output false)
  | some .keepLast =>
      some (.cont attribs (output.filter (fun p => p.1 != dupKey)) true)
  | some (.valueLevel m) =>
      match handleTagAttributeValueError children attribs k rule (some m) with
      | none => none
      | some (.gone repl) => some (.gone repl)
      | some (.cont a) => some (.cont a output true)
  | none =>
      match handleTagAttributeValueError children attribs k rule none with
      | none => none
      | some (.gone repl) => some (.gone repl)
      | some (.cont a) => some (.cont a output true)

/-- Outcome of the children-count handler: element discarded, or continue
with the trimmed child list. -/
inductive ChildrenOutcome where
  | gone
  | cont (children : List Node)

/-- Embeds `handleTagChildrenError`: `discardElement` detaches the element,
`discardFirsts` and `discardLasts` detach the excess children from the
matching end, `throwError` and an unset mode throw. -/
def handleTagChildrenError (children : List Node) (maxChildren : Nat)
    (mode : Option TagChildrenErrorMode) : Option ChildrenOutcome :=
  let excess := children.length - maxChildren
  match mode with
  | some .discardElement => some .gone
  | some .discardFirsts => some (.cont (children.drop excess))
  | some .discardLasts => some (.cont (children.take (children.length - excess)))
  | some .throwError => none
  | none => none

/-- Embeds `handleTagNestingError`: `discardElement` detaches the element
(and the handler always reports `false`), `throwError` and an unset mode
throw. -/
def handleTagNestingError (mode : Option TagNestingErrorMode) : Option Unit :=
  match mode with
  | some .discardElement => some ()
  | some .throwError => none
  | none => none

/-- Resolve the rule for an attribute name: `rules?.[name] ?? rules?.["*"]`. -/
def lookupAttrRule (rules : Option (List (Str × AttrRule))) (k : Str) :
    Option AttrRule :=
  match rules with
  | none => none
  | some rs =>
      match lookupStr rs k with
      | some r => some r
      | none => lookupStr rs starStr

/-- Embeds `sanitizeTag` of `src/lib/sanitizers.ts`: a present rule admits
the tag, a missing rule invokes the tag handler (whose `false` return carries
the replacement nodes here). -/
def sanitizeTag (rule : Option TagRule) (children : List Node)
    (mode : Option TagErrorMode) : Option (Sum (List Node) TagRule) :=
  match rule with
  | some r => some (Sum.inr r)
  | none => (handleTagError children mode).map Sum.inl

/-- Result of `sanitizeTagAttribute`: proceed into value sanitization
(both flags true), skip this attribute (`localProceed = false`), or element
gone (`globalProceed = false`). -/
inductive TagAttrStep where
  | proceed
  | skip (attribs : AttrMap)
  | gone (repl : List Node)

/-- Embeds `sanitizeTagAttribute`: a present rule yields both proceed flags,
a missing rule invokes the attribute handler with `localProceed = false`. -/
def sanitizeTagAttribute (children : List Node) (attribs : AttrMap) (k : Str)
    (rule : Option AttrRule) (mode : Option AttrErrorMode) :
    Option TagAttrStep :=
  match rule with
  | some _ => some .proceed
  | none =>
      match handleTagAttributeError children attribs k mode with
      | none => none
      | some (.gone repl) => some (.gone repl)
      | some (.cont a) => some (.skip a)

/-- Embeds `sanitizeTagAttributeSimpleValue`: a matching value proceeds,
a mismatch is routed to the attribute-value handler. -/
def sanitizeTagAttributeSimpleValue (eh : ErrorHandling) (children : List Node)
    (attribs : AttrMap) (k value : Str) (rule : AttrRule) (cmp : Comparator) :
    Option AttrOutcome :=
  if matchComparator cmp value then some (.cont attribs)
  else handleTagAttributeValueError children attribs k rule eh.attributeValue

/-- Token loop of `sanitizeTagAttributeSetValue`: matching tokens are pushed
to the output, mismatches go to the set-value handler. -/
def setValueLoop (eh : ErrorHandling) (children : List Node) (k : Str)
    (rule : AttrRule) (values : Comparator) :
    List Str → AttrMap → List Str → Option (Sum (List Node) (AttrMap × List Str))
  | [], attribs, output => some (Sum.inr (attribs, output))
  | tok :: rest, attribs, output =>
      if matchComparator values tok then
        setValueLoop eh children k rule values rest attribs (output ++ [tok])
      else
        match handleTagAttributeSetValueError children attribs k rule
            eh.attributeSetValue with
        | none => none
        | some (.gone repl) => some (Sum.inl repl)
        | some (.cont a) => setValueLoop eh children k rule values rest a output

/-- Embeds `sanitizeTagAttributeSetValue`: parse, enforce `maxEntries`,
filter through the matcher and unconditionally write back the joined
survivors. -/
def sanitizeTagAttributeSetValue (eh : ErrorHandling) (children : List Node)
    (attribs : AttrMap) (k value : Str) (rule : AttrRule) (delimiter : Str)
    (maxEntries : Option Nat) (values : Comparator) : Option AttrOutcome :=
  let input := parseSet value delimiter
  let afterMax : Option (CollOutcome Str) :=
    if truthy maxEntries && input.length > maxEntries.getD 0 then
      handleTagAttributeCollectionValueTooManyError children attribs k input
        rule eh.attributeCollectionValueTooMany
    else some (.cont attribs input)
  match afterMax with
  | none => none
  | some (.gone repl) => some (.gone repl)
  | some (.cont attribs1 input1) =>
      match setValueLoop eh children k rule values input1 attribs1 [] with
      | none => none
      | some (Sum.inl repl) => some (.gone repl)
      | some (Sum.inr (attribs2, output)) =>
          some (.cont (aset attribs2 k (jsJoin delimiter output)))

/-- Pair loop of `sanitizeTagAttributeRecordValue`: duplicate keys go to the
duplicate handler, then the per-key matcher either admits the pair or routes
it to the record-value handler. -/
def recordValueLoop (eh : ErrorHandling) (children : List Node) (k : Str)
    (rule : AttrRule) (values : List (Str × Comparator)) :
    List (Str × Str) → AttrMap → List Str → List (Str × Str) →
    Option (Sum (List Node) (AttrMap × List (Str × Str)))
  | [], attribs, _, output => some (Sum.inr (attribs, output))
  | (pk, pv) :: rest, attribs, seen, output =>
      let checkPair : AttrMap → List (Str × Str) →
          Option (Sum (List Node) (AttrMap × List (Str × Str))) :=
        fun a out =>
          let pairRule := lookupStr values pk
          let ok := match pairRule with
            | some pr => matchComparator pr pv
            | none => false
          if ok then
            recordValueLoop eh children k rule values rest a (pk :: seen)
              (out ++ [(pk, pv)])
          else
            match handleTagAttributeRecordValueError children a k rule
                eh.attributeRecordValue with
            | none => none
            | some (.gone repl) => some (Sum.inl repl)
            | some (.cont a') =>
                recordValueLoop eh children k rule values rest a' seen out
      if seen.contains pk then
        match handleTagAttributeRecordValueDuplicateError children attribs k pk
            output rule eh.attributeRecordValueDuplicate with
        | none => none
        | some (.gone repl) => some (Sum.inl repl)
        | some (.cont a out localProceed) =>
            if localProceed then checkPair a out
            else recordValueLoop eh children k rule values rest a seen out
      else checkPair attribs output

/-- Embeds `sanitizeTagAttributeRecordValue`: parse, enforce `maxEntries`,
run the pair loop and unconditionally write back the joined surviving
pairs. -/
def sanitizeTagAttributeRecordValue (eh : ErrorHandling) (children : List Node)
    (attribs : AttrMap) (k value : Str) (rule : AttrRule)
    (entrySep pairSep : Str) (maxEntries : Option Nat)
    (values : List (Str × Comparator)) : Option AttrOutcome :=
  let input := parseRecord value entrySep pairSep
  let afterMax : Option (CollOutcome (Str × Str)) :=
    if truthy maxEntries && input.length > maxEntries.getD 0 then
      handleTagAttributeCollectionValueTooManyError children attribs k input
        rule eh.attributeCollectionValueTooMany
    else some (.cont attribs input)
  match afterMax with
  | none => none
  | some (.gone repl) => some (.gone repl)
  | some (.cont attribs1 input1) =>
      match recordValueLoop eh children k rule values input1 attribs1 [] [] with
      | none => none
      | some (Sum.inl repl) => some (.gone repl)
      | some (Sum.inr (attribs2, output)) =>
          some (.cont (aset attribs2 k
            (jsJoin entrySep (output.map (fun p => p.1 ++ pairSep ++ p.2)))))

/-- Embeds `sanitizeTagAttributeValue`: enforce `maxLength` first (re-reading
the attribute afterwards and stopping when it became absent or empty), then
dispatch on the rule's mode. -/
def sanitizeTagAttributeValue (eh : ErrorHandling) (children : List Node)
    (attribs : AttrMap) (k value : Str) (rule : AttrRule) :
    Option AttrOutcome :=
  let dispatch : AttrMap → Str → Option AttrOutcome := fun a v =>
    match rule.shape with
    | .record es ps me vals =>
        sanitizeTagAttributeRecordValue eh children a k v rule es ps me vals
    | .set d me vals =>
        sanitizeTagAttributeSetValue eh children a k v rule d me vals
    | .simple cmp =>
        sanitizeTagAttributeSimpleValue eh children a k v rule cmp
  if truthy rule.maxLength && value.length > rule.maxLength.getD 0 then
    match handleTagAttributeValueTooLongError children attribs k value rule
        eh.attributeValueTooLong with
    | none => none
    | some (.gone repl) => some (.gone repl)
    | some (.cont attribs1) =>
        match lookupStr attribs1 k with
        | none => some (.cont attribs1)
        | some [] => some (.cont attribs1)
        | some v1 => dispatch attribs1 v1
  else dispatch attribs value

/-- Loop of `enforceRequiredAttributes` over the rule entries. -/
def enforceRequiredLoop (eh : ErrorHandling) (children : List Node) :
    List (Str × AttrRule) → AttrMap → Option AttrOutcome
  | [], attribs => some (.cont attribs)
  | (k, r) :: rest, attribs =>
      if k == starStr then enforceRequiredLoop eh children rest attribs
      else if r.required && (lookupStr attribs k).isNone then
        match handleTagAttributeValueError children attribs k r
            eh.attributeValue with
        | none => none
        | some (.gone repl) => some (.gone repl)
        | some (.cont a) => enforceRequiredLoop eh children rest a
      else enforceRequiredLoop eh children rest attribs

/-- Embeds `enforceRequiredAttributes`: every required non-wildcard rule
whose attribute is absent invokes the attribute-value handler. -/
def enforceRequiredAttributes (eh : ErrorHandling) (children : List Node)
    (rules : Option (List (Str × AttrRule))) (attribs : AttrMap) :
    Option AttrOutcome :=
  match rules with
  | none => some (.cont attribs)
  | some rs => enforceRequiredLoop eh children rs attribs

/-- Loop of `sanitizeAttributes` over the snapshot of the attribute names. -/
def sanitizeAttributesLoop (eh : ErrorHandling) (children : List Node)
    (rules : Option (List (Str × AttrRule))) :
    List Str → AttrMap → Option AttrOutcome
  | [], attribs => some (.cont attribs)
  | k :: rest, attribs =>
      let value := (lookupStr attribs k).getD []
      let rule := lookupAttrRule rules k
      match sanitizeTagAttribute children attribs k rule eh.attr with
      | none => none
      | some (.gone repl) => some (.gone repl)
      | some (.skip a) => sanitizeAttributesLoop eh children rules rest a
      | some .proceed =>
          match rule with
          | none => none
          | some r =>
              match sanitizeTagAttributeValue eh children attribs k value r with
              | none => none
              | some (.gone repl) => some (.gone repl)
              | some (.cont a) => sanitizeAttributesLoop eh children rules rest a

/-- Embeds `sanitizeAttributes`: validate every present attribute against its
rule (with the `"*"` fallback), then enforce required attributes. -/
def sanitizeAttributes (eh : ErrorHandling) (children : List Node)
    (rules : Option (List (Str × AttrRule))) (attribs : AttrMap) :
    Option AttrOutcome :=
  let keys := attribs.map (fun p => p.1)
  if keys.isEmpty then enforceRequiredAttributes eh children rules attribs
  else
    match sanitizeAttributesLoop eh children rules keys attribs with
    | none => none
    | some (.gone repl) => some (.gone repl)
    | some (.cont a) => enforceRequiredAttributes eh children rules a

/-- Result of the per-tag nesting scan over the ancestor frames. -/
inductive NestScan where
  | violation
  | ok (frames : List (Str × Nat))

/-- The nesting-enforcement loop of `walkElement`, on the frame list ordered
innermost first: bump each counter, and report a violation as soon as a
frame's tag rule declares a truthy `nesting` limit smaller than the bumped
counter. -/
def nestingScanRev (tags : List (Str × TagRule)) :
    List (Str × Nat) → NestScan
  | [] => .ok []
  | (k, v) :: rest =>
      let v' := v + 1
      let lim := match lookupStr tags k with
        | some r => r.limits.nesting
        | none => none
      if truthy lim && v' > lim.getD 0 then .violation
      else
        match nestingScanRev tags rest with
        | .violation => .violation
        | .ok fs => .ok ((k, v') :: fs)

theorem sizeOf_list_take_le {α : Type} [SizeOf α] (l : List α) (n : Nat) :
    sizeOf (l.take n) ≤ sizeOf l := by
  induction l generalizing n with
  | nil => cases n <;> simp
  | cons x xs ih =>
      cases n with
      | zero => simp; omega
      | succ m =>
          simp only [List.take_succ_cons, List.cons.sizeOf_spec]
          have := ih m
          omega

theorem sizeOf_list_drop_le {α : Type} [SizeOf α] (l : List α) (n : Nat) :
    sizeOf (l.drop n) ≤ sizeOf l := by
  induction l generalizing n with
  | nil => cases n <;> simp
  | cons x xs ih =>
      cases n with
      | zero => simp
      | succ m =>
          simp only [List.drop_succ_cons, List.cons.sizeOf_spec]
          have := ih m
          omega

theorem handleTagChildrenError_sizeOf_le (children : List Node)
    (maxChildren : Nat) (mode : Option TagChildrenErrorMode)
    (out : List Node)
    (h : handleTagChildrenError children maxChildren mode = some (.cont out)) :
    sizeOf out ≤ sizeOf children := by
  unfold handleTagChildrenError at h
  cases mode with
  | none => simp at h
  | some m =>
      cases m <;> simp at h <;> subst h
      · exact sizeOf_list_drop_le _ _
      · exact sizeOf_list_take_le _ _

/-- Embeds `walkNode` and `walkElement` of `src/lib/walker.ts`, fused into a
single traversal over a sibling list.  Each node contributes its replacement
list (empty when detached, the unprocessed child list when unwrapped), and
the walk continues with the sibling snapshot taken before the node was
processed, so nodes spliced up by an unwrap are skipped.  `none` models a
thrown sanitization error. -/
def walkList (opts : SanitizerOptions) :
    List Node → SanitizerState → Option (List Node)
  | [], _ => some []
  | .text s :: rest, st =>
      match walkList opts rest st with
      | none => none
      | some tail => some (.text s :: tail)
  | .comment s :: rest, st =>
      if opts.preserveComments then
        match walkList opts rest st with
        | none => none
        | some tail => some (.comment s :: tail)
      else walkList opts rest st
  | .element tag attribs children :: rest, st =>
      let tln := opts.topLevelLimits.nesting
      if truthy tln && st.rootNesting > tln.getD 0 then
        match handleTagNestingError opts.errorHandling.tagNesting with
        | none => none
        | some _ => walkList opts rest st
      else
        let st1 : SanitizerState := ⟨st.rootNesting + 1, st.tagNesting⟩
        match sanitizeTag (lookupStr opts.tags tag) children
            opts.errorHandling.tag with
        | none => none
        | some (Sum.inl repl) =>
            match walkList opts rest st with
            | none => none
            | some tail => some (repl ++ tail)
        | some (Sum.inr rule) =>
          match sanitizeAttributes opts.errorHandling children rule.attributes
              attribs with
          | none => none
          | some (.gone repl) =>
              match walkList opts rest st with
              | none => none
              | some tail => some (repl ++ tail)
          | some (.cont attribs1) =>
            let climit := rule.limits.children
            match hcl : (if truthy climit && children.length > climit.getD 0
                then handleTagChildrenError children (climit.getD 0)
                  opts.errorHandling.tagChildren
                else some (.cont children)) with
            | none => none
            | some .gone => walkList opts rest st
            | some (.cont children1) =>
              match nestingScanRev opts.tags st1.tagNesting.reverse with
              | .violation =>
                  match handleTagNestingError opts.errorHandling.tagNesting with
                  | none => none
                  | some _ => walkList opts rest st
              | .ok fs =>
                let st2 : SanitizerState :=
                  ⟨st1.rootNesting, fs.reverse ++ [(tag, 0)]⟩
                match walkList opts children1 st2 with
                | none => none
                | some kids =>
                    match walkList opts rest st with
                    | none => none
                    | some tail => some (.element tag attribs1 kids :: tail)
termination_by l _ => sizeOf l
decreasing_by
  all_goals simp_wf
  all_goals
    have hle : sizeOf children1 ≤ sizeOf children := by
      split at hcl
      · exact handleTagChildrenError_sizeOf_le _ _ _ _ hcl
      · cases hcl; exact Nat.le_refl _
  all_goals omega

/-- Embeds `sanitizeHtml` of `src/index.ts` at the tree level.

Modelled from the spec: the external `parseFragment` and `serialize`
collaborators of parse5 (outside this repository; spec section 2 lists the
parser and serializer as external) are taken as the identity between the
input fragment and the node list, so the function maps the parsed fragment
to the fragment that would be serialized, and `none` models a thrown
error. -/
def sanitizeHtml (opts : SanitizerOptions) (frag : List Node) :
    Option (List Node) :=
  if frag.isEmpty then some []
  else
    let c := opts.topLevelLimits.children
    if truthy c && frag.length > c.getD 0 then
      match handleTagChildrenError frag (c.getD 0)
          opts.errorHandling.tagChildren with
      | none => none
      | some .gone => some []
      | some (.cont frag1) => walkList opts frag1 ⟨0, []⟩
    else walkList opts frag ⟨0, []⟩

/-- The parse step exactly as claim C8 words it: split the trimmed input on
the entry separator and keep exactly those entries that split on the pair
separator into exactly two parts that are nonempty after trimming. -/
def parseRecordClaim (input entrySep pairSep : Str) : List (Str × Str) :=
  let trimmed := jsTrim input
  if trimmed == [] then []
  else
    (jsSplit trimmed entrySep).filterMap (fun e =>
      match jsSplit e pairSep with
      | [a, b] =>
          let key := jsTrim a
          let val := jsTrim b
          if key != [] && val != [] then some (key, val) else none
      | _ => none)

/-- The claim C8 pipeline amended with the step the source actually performs
between the two splits: each entry is trimmed and blank entries are dropped
before the pair split. -/
def parseRecordAmendedSpec (input entrySep pairSep : Str) : List (Str × Str) :=
  let trimmed := jsTrim input
  if trimmed == [] then []
  else
    (((jsSplit trimmed entrySep).map jsTrim).filter (fun t => t != [])).filterMap
      (fun e =>
        match jsSplit e pairSep with
        | [a, b] =>
            let key := jsTrim a
            let val := jsTrim b
            if key != [] && val != [] then some (key, val) else none
        | _ => none)

/-- Keys of an ordered map are pairwise distinct. -/
def keysNodupB {α : Type} : List (Str × α) → Bool
  | [] => true
  | (k, _) :: rest => !(rest.any (fun p => p.1 == k)) && keysNodupB rest

mutual
/-- Every element in the tree has a tag which is a key of the policy's tag
map. -/
def nodeAllowed (tags : List (Str × TagRule)) : Node → Bool
  | .element t _ cs => (lookupStr tags t).isSome && nodesAllowed tags cs
  | _ => true

/-- `nodeAllowed` on every node of a list. -/
def nodesAllowed (tags : List (Str × TagRule)) : List Node → Bool
  | [] => true
  | n :: rest => nodeAllowed tags n && nodesAllowed tags rest
end

mutual
/-- Element depth of a node: elements count one plus the depth of their
child forest, other nodes count zero. -/
def nodeElemDepth : Node → Nat
  | .element _ _ cs => 1 + listElemDepth cs
  | _ => 0

/-- Greatest element depth in a forest. -/
def listElemDepth : List Node → Nat
  | [] => 0
  | n :: rest => max (nodeElemDepth n) (listElemDepth rest)
end

mutual
/-- Structural limits hold throughout a tree: whenever an element's tag rule
declares a truthy `children` limit its child count stays within it, and
whenever it declares a truthy `nesting` limit no descendant element sits
deeper than that limit below it. -/
def nodeLimitsOk (tags : List (Str × TagRule)) : Node → Bool
  | .element t _ cs =>
      (match lookupStr tags t with
       | some r =>
          (if truthy r.limits.children then
             decide (cs.length ≤ r.limits.children.getD 0)
           else true) &&
          (if truthy r.limits.nesting then
             decide (listElemDepth cs ≤ r.limits.nesting.getD 0)
           else true)
       | none => true) && nodesLimitsOk tags cs
  | _ => true

/-- `nodeLimitsOk` on every node of a list. -/
def nodesLimitsOk (tags : List (Str × TagRule)) : List Node → Bool
  | [] => true
  | n :: rest => nodeLimitsOk tags n && nodesLimitsOk tags rest
end

/-- A tag-level strategy other than `unwrapElement`. -/
def tagModeUnwrapFree : TagErrorMode → Bool
  | .unwrapElement => false
  | _ => true

/-- An attribute-level strategy which can never reach `unwrapElement`. -/
def attrModeUnwrapFree : AttrErrorMode → Bool
  | .discardAttribute => true
  | .tagLevel m => tagModeUnwrapFree m

/-- An attribute-value strategy which can never reach `unwrapElement`. -/
def valueModeUnwrapFree : AttrValueErrorMode → Bool
  | .applyDefaultValue => true
  | .attrLevel m => attrModeUnwrapFree m

/-- A too-long strategy which can never reach `unwrapElement`. -/
def tooLongModeUnwrapFree : ValueTooLongErrorMode → Bool
  | .trimExcess => true
  | .valueLevel m => valueModeUnwrapFree m

/-- A set-value strategy which can never reach `unwrapElement`. -/
def setModeUnwrapFree : SetValueErrorMode → Bool
  | .dropValue => true
  | .valueLevel m => valueModeUnwrapFree m

/-- A record-value strategy which can never reach `unwrapElement`. -/
def recModeUnwrapFree : RecordValueErrorMode → Bool
  | .dropPair => true
  | .valueLevel m => valueModeUnwrapFree m

/-- A too-many strategy which can never reach `unwrapElement`. -/
def manyModeUnwrapFree : TooManyErrorMode → Bool
  | .dropExtra => true
  | .valueLevel m => valueModeUnwrapFree m

/-- A duplicate-key strategy which can never reach `unwrapElement`. -/
def dupModeUnwrapFree : DuplicateErrorMode → Bool
  | .valueLevel m => valueModeUnwrapFree m
  | _ => true

/-- Lift a mode predicate to an optional slot; an unset slot throws, so it
never unwraps. -/
def optFree {α : Type} (f : α → Bool) : Option α → Bool
  | none => true
  | some m => f m

/-- No error-handling slot of the policy can reach the `unwrapElement`
strategy. -/
def unwrapFree (eh : ErrorHandling) : Bool :=
  optFree tagModeUnwrapFree eh.tag &&
  optFree attrModeUnwrapFree eh.attr &&
  optFree valueModeUnwrapFree eh.attributeValue &&
  optFree tooLongModeUnwrapFree eh.attributeValueTooLong &&
  optFree setModeUnwrapFree eh.attributeSetValue &&
  optFree recModeUnwrapFree eh.attributeRecordValue &&
  optFree manyModeUnwrapFree eh.attributeCollectionValueTooMany &&
  optFree dupModeUnwrapFree eh.attributeRecordValueDuplicate

/-- A tag-level strategy which never throws. -/
def tagModeNoThrow : TagErrorMode → Bool
  | .throwError => false
  | _ => true

/-- A children-level strategy which never throws. -/
def childrenModeNoThrow : TagChildrenErrorMode → Bool
  | .throwError => false
  | _ => true

/-- A nesting-level strategy which never throws. -/
def nestingModeNoThrow : TagNestingErrorMode → Bool
  | .throwError => false
  | _ => true

/-- An attribute-level strategy which never throws. -/
def attrModeNoThrow : AttrErrorMode → Bool
  | .discardAttribute => true
  | .tagLevel m => tagModeNoThrow m

/-- An attribute-value strategy which never throws. -/
def valueModeNoThrow : AttrValueErrorMode → Bool
  | .applyDefaultValue => true
  | .attrLevel m => attrModeNoThrow m

/-- A too-long strategy which never throws. -/
def tooLongModeNoThrow : ValueTooLongErrorMode → Bool
  | .trimExcess => true
  | .valueLevel m => valueModeNoThrow m

/-- A set-value strategy which never throws. -/
def setModeNoThrow : SetValueErrorMode → Bool
  | .dropValue => true
  | .valueLevel m => valueModeNoThrow m

/-- A record-value strategy which never throws. -/
def recModeNoThrow : RecordValueErrorMode → Bool
  | .dropPair => true
  | .valueLevel m => valueModeNoThrow m

/-- A too-many strategy which never throws. -/
def manyModeNoThrow : TooManyErrorMode → Bool
  | .dropExtra => true
  | .valueLevel m => valueModeNoThrow m

/-- A duplicate-key strategy which never throws. -/
def dupModeNoThrow : DuplicateErrorMode → Bool
  | .valueLevel m => valueModeNoThrow m
  | _ => true

/-- Lift a mode predicate to an optional slot, requiring the slot to be set:
an unset slot defaults to `throwError`. -/
def optSet {α : Type} (f : α → Bool) : Option α → Bool
  | none => false
  | some m => f m

/-- Every error-handling slot which would default to `throwError` is set to
a strategy that never throws. -/
def noThrow (eh : ErrorHandling) : Bool :=
  optSet tagModeNoThrow eh.tag &&
  optSet childrenModeNoThrow eh.tagChildren &&
  optSet nestingModeNoThrow eh.tagNesting &&
  optSet attrModeNoThrow eh.attr &&
  optSet valueModeNoThrow eh.attributeValue &&
  optSet tooLongModeNoThrow eh.attributeValueTooLong &&
  optSet setModeNoThrow eh.attributeSetValue &&
  optSet recModeNoThrow eh.attributeRecordValue &&
  optSet manyModeNoThrow eh.attributeCollectionValueTooMany &&
  optSet dupModeNoThrow eh.attributeRecordValueDuplicate

/-- An attribute rule is simple-mode with defaults compatible with its own
constraints: a declared default value must fit a truthy `maxLength`. -/
def attrRuleStable (r : AttrRule) : Bool :=
  (match r.shape with
   | .simple _ => true
   | _ => false) &&
  (match r.defaultValue with
   | some d => if truthy r.maxLength then decide (d.length ≤ r.maxLength.getD 0) else true
   | none => true)

/-- Every attribute rule of the policy is a simple-mode rule whose default
value fits its `maxLength`, and every rule map has pairwise-distinct keys. -/
def simpleStablePolicy (opts : SanitizerOptions) : Bool :=
  opts.tags.all (fun p =>
    match p.2.attributes with
    | none => true
    | some rs => keysNodupB rs && rs.all (fun q => attrRuleStable q.2))

mutual
/-- Every element of the tree carries pairwise-distinct attribute names, as
trees produced by the parser do. -/
def nodeAttrsWf : Node → Bool
  | .element _ a cs => keysNodupB a && nodesAttrsWf cs
  | _ => true

/-- `nodeAttrsWf` on every node of a list. -/
def nodesAttrsWf : List Node → Bool
  | [] => true
  | n :: rest => nodeAttrsWf n && nodesAttrsWf rest
end

/-- Tag name fixture. -/
def tagDiv : Str := "div".toList

/-- Tag name fixture for a tag missing from every policy below. -/
def tagBad : Str := "bad".toList

/-- Tag name fixture. -/
def tagScript : Str := "script".toList

/-- Attribute name fixture. -/
def keyId : Str := "id".toList

/-- Attribute name fixture. -/
def keyClass : Str := "class".toList

/-- Policy fixture: only `div` is allowed and disallowed tags are
unwrapped. -/
def optsUnwrap : SanitizerOptions :=
  { tags := [(tagDiv, {})]
    errorHandling := { tag := some .unwrapElement } }

/-- Fragment fixture: a disallowed element nested inside a disallowed
element. -/
def fragNestedBad : List Node :=
  [Node.element tagBad [] [Node.element tagBad [] [Node.text "x".toList]]]

/-- Policy fixture: only `div` is allowed and disallowed tags are
discarded. -/
def optsDiscard : SanitizerOptions :=
  { tags := [(tagDiv, {})]
    errorHandling := { tag := some .discardElement } }

/-- Fragment fixture: a `script` element inside a `div`. -/
def fragDivScript : List Node :=
  [Node.element tagDiv [] [Node.element tagScript [] [], Node.text "t".toList]]

/-- Policy fixture: `div` has a children limit of one, disallowed tags are
unwrapped. -/
def optsChildLimitUnwrap : SanitizerOptions :=
  { tags := [(tagDiv, { limits := { children := some 1 } })]
    errorHandling := { tag := some .unwrapElement } }

/-- Fragment fixture: a `div` with a single disallowed child which itself
has two children. -/
def fragDivBadTwo : List Node :=
  [Node.element tagDiv []
    [Node.element tagBad [] [Node.text "a".toList, Node.text "b".toList]]]

/-- Policy fixture: `div` has a children limit of one, disallowed tags are
discarded. -/
def optsChildLimitDiscard : SanitizerOptions :=
  { tags := [(tagDiv, { limits := { children := some 1 } })]
    errorHandling := { tag := some .discardElement } }

/-- Attribute rule fixture: a simple wildcard rule. -/
def ruleAnySimple : AttrRule := { shape := .simple (.strVal starStr) }

/-- Tag rule fixture for the idempotence witness. -/
def tagRuleStable : TagRule := { attributes := some [(keyId, ruleAnySimple)] }

/-- Fully non-throwing, unwrap-free, simple-mode policy fixture for the
idempotence claim. -/
def optsStable : SanitizerOptions :=
  { tags := [(tagDiv, tagRuleStable)]
    errorHandling :=
      { tag := some .discardElement
        tagChildren := some .discardLasts
        tagNesting := some .discardElement
        attr := some .discardAttribute
        attributeValue := some .applyDefaultValue
        attributeValueTooLong := some .trimExcess
        attributeSetValue := some .dropValue
        attributeRecordValue := some .dropPair
        attributeCollectionValueTooMany := some .dropExtra
        attributeRecordValueDuplicate := some .keepFirst } }

/-- Fully non-throwing policy fixture whose tag strategy unwraps. -/
def optsNoThrowUnwrap : SanitizerOptions :=
  { tags := [(tagDiv, {})]
    errorHandling :=
      { tag := some .unwrapElement
        tagChildren := some .discardLasts
        tagNesting := some .discardElement
        attr := some .discardAttribute
        attributeValue := some .applyDefaultValue
        attributeValueTooLong := some .trimExcess
        attributeSetValue := some .dropValue
        attributeRecordValue := some .dropPair
        attributeCollectionValueTooMany := some .dropExtra
        attributeRecordValueDuplicate := some .keepFirst } }

/-- Fragment fixture with one attribute kept and one dropped. -/
def fragDivAttrs : List Node :=
  [Node.element tagDiv
    [(keyId, "a".toList), ("onclick".toList, "x".toList)]
    [Node.element tagScript [] [], Node.text "t".toList]]

/-- Attribute rule fixture whose declared default value is the empty
string. -/
def ruleEmptyDefault : AttrRule :=
  { shape := .simple (.strVal "v".toList), defaultValue := some [] }

/-- Attribute rule fixture: any value, `maxLength` declared as zero. -/
def ruleMaxLenZero : AttrRule :=
  { shape := .simple (.strVal starStr), maxLength := some 0 }

/-- Policy fixture: top-level children limit declared as zero. -/
def optsTopZero : SanitizerOptions :=
  { tags := [(tagDiv, {})]
    topLevelLimits := { children := some 0 }
    errorHandling := { tagChildren := some .discardElement } }

/-- Error-handling fixture where the too-long handler trims. -/
def ehTrim : ErrorHandling := { attributeValueTooLong := some .trimExcess }

/-- Input fixture for the record-parse counterexample. -/
def recInput : Str := "a b ;c d".toList

/-- A value sitting in an attribute slot is stable: re-running the
attribute-value sanitizer on it leaves the map untouched and succeeds. -/
def presentStable (eh : ErrorHandling) (r : AttrRule) (w : Str) : Prop :=
  ∀ (ch : List Node) (k : Str) (m : AttrMap), lookupStr m k = some w →
    sanitizeTagAttributeValue eh ch m k w r = some (.cont m)

/-- An absent attribute slot is stable: the attribute-value handler invoked
on the missing attribute (as required-attribute enforcement does) leaves the
map untouched and succeeds. -/
def absentStable (eh : ErrorHandling) (r : AttrRule) : Prop :=
  ∀ (ch : List Node) (k : Str) (m : AttrMap), lookupStr m k = none →
    handleTagAttributeValueError ch m k r eh.attributeValue = some (.cont m)

/-- An attribute map on which the attribute pipeline is a fixpoint: its keys
are pairwise distinct, every present attribute has a rule for which its value
is stable, and every absent required attribute tolerates re-enforcement. -/
def mapStable (eh : ErrorHandling) (rules : Option (List (Str × AttrRule)))
    (m : AttrMap) : Prop :=
  keysNodupB m = true ∧
  (∀ k u, lookupStr m k = some u →
    ∃ r, lookupAttrRule rules k = some r ∧ presentStable eh r u) ∧
  (∀ rs, rules = some rs → ∀ p ∈ rs, (p.1 == starStr) = false →
    p.2.required = true → lookupStr m p.1 = none → absentStable eh p.2)

/-- Claim C7: `matchComparator` is total over the matcher universe and tests
its cases in the fixed order wildcard, callable, regular expression, exact
string, list membership, boolean (`true` matches exactly the empty string,
`false` exactly the nonempty strings), returning `false` for anything
outside the universe; in particular the literal string matcher `"*"` accepts
every value, never only the one-character value `"*"`. -/
theorem C7_matcher_total_and_ordered :
    ∀ (v s : Str) (f t : Str → Bool) (l : List Str),
      matchComparator (.strVal starStr) v = true ∧
      matchComparator (.strVal s) v = (s == starStr || v == s) ∧
      matchComparator (.fnVal f) v = f v ∧
      matchComparator (.regexVal t) v = t v ∧
      matchComparator (.listVal l) v = l.contains v ∧
      (matchComparator (.boolVal true) v = true ↔ v = []) ∧
      (matchComparator (.boolVal false) v = true ↔ v ≠ []) ∧
      matchComparator .outside v = false := by
  intro v s f t l
  refine ⟨by simp [matchComparator], ?_, rfl, rfl, rfl, ?_, ?_, rfl⟩
  · by_cases h : s == starStr <;> simp [matchComparator, h]
  · simp [matchComparator]
  · simp [matchComparator]

/-- Claim C4: for a duplicate record key, `dropDuplicates` removes every
entry with that key from the surviving output (including the first
occurrence) and reports `localProceed = false`; `keepDuplicates` leaves the
output unchanged with `localProceed = true`; `keepFirst` leaves it unchanged
with `localProceed = false`; `keepLast` removes the prior occurrences with
`localProceed = true`; in all four cases the handler proceeds globally
(no `gone`, no throw). -/
theorem C4_record_duplicate_strategies :
    ∀ (children : List Node) (attribs : AttrMap) (k dupKey : Str)
      (output : List (Str × Str)) (rule : AttrRule),
      handleTagAttributeRecordValueDuplicateError children attribs k dupKey
          output rule (some .dropDuplicates) =
        some (.cont attribs (output.filter (fun p => p.1 != dupKey)) false) ∧
      (∀ p, p ∈ output.filter (fun q => q.1 != dupKey) ↔
        (p ∈ output ∧ p.1 ≠ dupKey)) ∧
      handleTagAttributeRecordValueDuplicateError children attribs k dupKey
          output rule (some .keepDuplicates) =
        some (.cont attribs output true) ∧
      handleTagAttributeRecordValueDuplicateError children attribs k dupKey
          output rule (some .keepFirst) =
        some (.cont attribs output false) ∧
      handleTagAttributeRecordValueDuplicateError children attribs k dupKey
          output rule (some .keepLast) =
        some (.cont attribs (output.filter (fun p => p.1 != dupKey)) true) := by
  intro children attribs k dupKey output rule
  refine ⟨rfl, ?_, rfl, rfl, rfl⟩
  intro p
  simp [List.mem_filter]

/-- Claim C5 counterexample: a rule whose `defaultValue` is present but is
the empty string is not applied; `applyDefaultValue` deletes the attribute
instead of setting it to the declared default. -/
theorem C5_counterexample :
    ruleEmptyDefault.defaultValue = some [] ∧
    handleTagAttributeValueError [] [(keyId, "x".toList)] keyId
        ruleEmptyDefault (some .applyDefaultValue) =
      some (.cont []) ∧
    some (AttrOutcome.cont []) ≠
      some (.cont (aset [(keyId, "x".toList)] keyId [])) := by
  refine ⟨rfl, rfl, ?_⟩
  show some (AttrOutcome.cont []) ≠ some (.cont [(keyId, [])])
  simp

/-- Claim C5 (amended): `applyDefaultValue` sets the attribute to the rule's
`defaultValue` when that default is a nonempty string, and deletes the
attribute when the default is absent or is the empty string (which the
source treats as unset via truthiness); the handler reports success in both
cases. -/
theorem C5_applyDefaultValue_amended :
    ∀ (children : List Node) (attribs : AttrMap) (k : Str) (rule : AttrRule),
      (∀ d, rule.defaultValue = some d → d ≠ [] →
        handleTagAttributeValueError children attribs k rule
            (some .applyDefaultValue) = some (.cont (aset attribs k d))) ∧
      ((rule.defaultValue = none ∨ rule.defaultValue = some []) →
        handleTagAttributeValueError children attribs k rule
            (some .applyDefaultValue) = some (.cont (adel attribs k))) := by
  intro children attribs k rule
  constructor
  · intro d hd hne
    simp [handleTagAttributeValueError, hd, hne]
  · intro h
    rcases h with h | h <;> simp [handleTagAttributeValueError, h]

/-- Witness for C5: the amended statement evaluated at a nonempty default
and at the empty-string default. -/
theorem C5_witness :
    handleTagAttributeValueError [] [] keyId
        { shape := .simple (.strVal starStr), defaultValue := some "x".toList }
        (some .applyDefaultValue) = some (.cont (aset [] keyId "x".toList)) ∧
    handleTagAttributeValueError [] [] keyId ruleEmptyDefault
        (some .applyDefaultValue) = some (.cont (adel [] keyId)) :=
  ⟨(C5_applyDefaultValue_amended [] [] keyId _).1 _ rfl (by simp),
   (C5_applyDefaultValue_amended [] [] keyId _).2 (Or.inr rfl)⟩

/-- Claim C8 counterexample: in `"a b ;c d"` with entry separator `";"` and
pair separator `" "`, the first entry `"a b "` splits on the pair separator
into three parts, so the claim's parse (which does not trim entries) drops
it, while the source trims each entry before the pair split and keeps both
pairs. -/
theorem C8_counterexample :
    parseRecord recInput (";".toList) (" ".toList) =
      [("a".toList, "b".toList), ("c".toList, "d".toList)] ∧
    parseRecordClaim recInput (";".toList) (" ".toList) =
      [("c".toList, "d".toList)] := by
  exact ⟨rfl, rfl⟩

theorem parseRecordLoop_filterMap (ps : Str) (l : List Str) :
    parseRecordLoop ps l = l.filterMap (fun e =>
      match jsSplit e ps with
      | [a, b] =>
          if jsTrim a != [] && jsTrim b != [] then some (jsTrim a, jsTrim b)
          else none
      | _ => none) := by
  induction l with
  | nil => rfl
  | cons e rest ih =>
      simp only [parseRecordLoop, List.filterMap_cons]
      cases h : jsSplit e ps with
      | nil => simp [h, ih]
      | cons a t =>
          cases t with
          | nil => simp [h, ih]
          | cons b t2 =>
              cases t2 with
              | nil =>
                  by_cases hk : jsTrim a = []
                  · simp [h, hk, ih]
                  · by_cases hv : jsTrim b = []
                    · simp [h, hk, hv, ih]
                    · simp [h, hk, hv, ih]
              | cons c t3 => simp [h, ih]

/-- Claim C8 (amended): `parseRecord` trims the input (returning the empty
list for a blank input), splits on the entry separator, trims each entry and
drops blank entries, and keeps exactly those remaining entries that split on
the pair separator into exactly two parts nonempty after trimming; surviving
pairs are returned trimmed, in input order, and duplicate keys are not
removed at this step. -/
theorem C8_parseRecord_amended :
    ∀ (input entrySep pairSep : Str),
      parseRecord input entrySep pairSep =
        parseRecordAmendedSpec input entrySep pairSep := by
  intro input entrySep pairSep
  unfold parseRecord parseRecordAmendedSpec
  by_cases h : jsTrim input == []
  · simp [h]
  · simp only [h, if_false, Bool.false_eq_true]
    exact parseRecordLoop_filterMap _ _

mutual
theorem nodeEqb_refl : ∀ n : Node, nodeEqb n n = true
  | .element t a c => by simp [nodeEqb, nodeListEqb_refl c]
  | .comment s => by simp [nodeEqb]
  | .text s => by simp [nodeEqb]

theorem nodeListEqb_refl : ∀ l : List Node, nodeListEqb l l = true
  | [] => rfl
  | x :: xs => by simp [nodeListEqb, nodeEqb_refl x, nodeListEqb_refl xs]
end

theorem insertBeforeL_append (A B : List Node) (c nx : Node)
    (hA : ∀ x ∈ A, nodeEqb x nx = false) :
    insertBeforeL (A ++ nx :: B) c nx = A ++ c :: nx :: B := by
  induction A with
  | nil => simp [insertBeforeL, nodeEqb_refl]
  | cons a as ih =>
      have ha := hA a (by simp)
      simp only [List.cons_append, insertBeforeL, ha, Bool.false_eq_true,
        if_false, List.cons.injEq, true_and]
      exact ih (fun x hx => hA x (by simp [hx]))

theorem foldl_insertBeforeL (cs : List Node) (A B : List Node) (nx : Node)
    (hA : ∀ x ∈ A, nodeEqb x nx = false)
    (hcs : ∀ x ∈ cs, nodeEqb x nx = false) :
    cs.foldl (fun acc c => insertBeforeL acc c nx) (A ++ nx :: B) =
      (A ++ cs) ++ nx :: B := by
  induction cs generalizing A with
  | nil => simp
  | cons c rest ih =>
      simp only [List.foldl_cons]
      rw [insertBeforeL_append A B c nx hA]
      have hform : A ++ c :: nx :: B = (A ++ [c]) ++ nx :: B := by simp
      rw [hform, ih (A ++ [c])]
      · simp
      · intro x hx
        rcases List.mem_append.mp hx with h | h
        · exact hA x h
        · rcases List.mem_singleton.mp h with rfl
          exact hcs x (by simp)
      · intro x hx
        exact hcs x (by simp [hx])

theorem foldl_appendOne (cs : List Node) (A : List Node) :
    cs.foldl (fun acc c => acc ++ [c]) A = A ++ cs := by
  induction cs generalizing A with
  | nil => simp
  | cons c rest ih => simp [List.foldl_cons, ih]

theorem detachL_append (A B : List Node) (e : Node)
    (hA : ∀ x ∈ A, nodeEqb x e = false) :
    detachL (A ++ e :: B) e = A ++ B := by
  induction A with
  | nil => simp [detachL, nodeEqb_refl]
  | cons a as ih =>
      have ha := hA a (by simp)
      simp only [List.cons_append, detachL, ha, Bool.false_eq_true, if_false,
        List.cons.injEq, true_and]
      exact ih (fun x hx => hA x (by simp [hx]))

/-- Claim C9: for an element with a parent and at least one child,
`unwrapInParent` inserts each child, in original order, into the parent at
the element's position (before its next sibling, or appended when there is
none) and then detaches the element, so the parent's child list becomes
`pre ++ children ++ post`; each moved child keeps its own subtree because
the nodes move whole.  With no children, or with no parent, the element is
just detached.  The distinctness premises say that the detached element and
the captured next sibling are not duplicated among the other nodes, which
stands in for the object identity of the mutable tree. -/
theorem C9_unwrapInParent :
    ∀ (pre post cs : List Node) (tag : Str) (attribs : AttrMap),
      (cs ≠ [] →
        (∀ x ∈ pre, nodeEqb x (Node.element tag attribs cs) = false) →
        (∀ nx, post.head? = some nx →
          nodeEqb (Node.element tag attribs cs) nx = false ∧
          (∀ x ∈ pre, nodeEqb x nx = false) ∧
          (∀ c ∈ cs, nodeEqb c nx = false)) →
        unwrapInParent (Node.element tag attribs cs) (some (pre, post)) =
          some (pre ++ cs ++ post)) ∧
      (cs = [] →
        unwrapInParent (Node.element tag attribs cs) (some (pre, post)) =
          some (pre ++ post)) ∧
      unwrapInParent (Node.element tag attribs cs) none = none := by
  intro pre post cs tag attribs
  refine ⟨?_, ?_, ?_⟩
  · intro hne hpre hnx
    have hemp : cs.isEmpty = false := by
      cases cs with
      | nil => exact absurd rfl hne
      | cons c cs' => rfl
    unfold unwrapInParent
    simp only [Node.childList, hemp, Bool.false_eq_true, if_false]
    cases post with
    | nil =>
        simp only [List.head?_nil, List.append_nil]
        rw [show pre ++ [Node.element tag attribs cs] =
          (pre ++ [Node.element tag attribs cs]) ++ ([] : List Node) by simp]
        rw [foldl_appendOne]
        have : (pre ++ [Node.element tag attribs cs]) ++ [] ++ cs =
            pre ++ Node.element tag attribs cs :: cs := by simp
        rw [this, detachL_append pre cs _ hpre]
    | cons nx post' =>
        obtain ⟨h1, h2, h3⟩ := hnx nx rfl
        simp only [List.head?_cons]
        have hA : ∀ x ∈ pre ++ [Node.element tag attribs cs],
            nodeEqb x nx = false := by
          intro x hx
          rcases List.mem_append.mp hx with h | h
          · exact h2 x h
          · rcases List.mem_singleton.mp h with rfl
            exact h1
        rw [show pre ++ [Node.element tag attribs cs] ++ nx :: post' =
          (pre ++ [Node.element tag attribs cs]) ++ nx :: post' by simp]
        rw [foldl_insertBeforeL cs _ post' nx hA h3]
        have : (pre ++ [Node.element tag attribs cs] ++ cs) ++ nx :: post' =
            pre ++ Node.element tag attribs cs :: (cs ++ nx :: post') := by simp
        rw [this, detachL_append pre _ _ hpre]
        simp
  · intro hcs
    subst hcs
    rfl
  · unfold unwrapInParent
    cases cs with
    | nil => rfl
    | cons c cs' => rfl

/-- Witness for C9: the three cases evaluated on concrete trees. -/
theorem C9_witness :
    unwrapInParent (Node.element "u".toList [] [Node.text "c1".toList, Node.text "c2".toList])
        (some ([Node.text "p".toList], [Node.text "q".toList])) =
      some ([Node.text "p".toList] ++
        [Node.text "c1".toList, Node.text "c2".toList] ++ [Node.text "q".toList]) ∧
    unwrapInParent (Node.element "u".toList [] [])
        (some ([Node.text "p".toList], [Node.text "q".toList])) =
      some ([Node.text "p".toList] ++ [Node.text "q".toList]) ∧
    unwrapInParent (Node.element "u".toList []
        [Node.text "c1".toList, Node.text "c2".toList]) none = none := by
  refine ⟨?_, ?_, ?_⟩
  · exact (C9_unwrapInParent [Node.text "p".toList] [Node.text "q".toList]
      [Node.text "c1".toList, Node.text "c2".toList] "u".toList []).1
      (by simp)
      (by intro x hx; fin_cases hx; decide)
      (by
        intro nx h
        injection h with h2
        subst h2
        refine ⟨by decide, ?_, ?_⟩
        · intro x hx; fin_cases hx; decide
        · intro c hc; fin_cases hc <;> decide)
  · exact (C9_unwrapInParent [Node.text "p".toList] [Node.text "q".toList]
      [] "u".toList []).2.1 rfl
  · exact (C9_unwrapInParent [Node.text "p".toList] [Node.text "q".toList]
      [Node.text "c1".toList, Node.text "c2".toList] "u".toList []).2.2

theorem setValueLoop_all_match (eh : ErrorHandling) (children : List Node)
    (k : Str) (rule : AttrRule) (values : Comparator) :
    ∀ (toks : List Str) (attribs : AttrMap) (output : List Str),
      (∀ t ∈ toks, matchComparator values t = true) →
      setValueLoop eh children k rule values toks attribs output =
        some (Sum.inr (attribs, output ++ toks)) := by
  intro toks
  induction toks with
  | nil => intro attribs output h; simp [setValueLoop]
  | cons t rest ih =>
      intro attribs output h
      have ht := h t (by simp)
      simp only [setValueLoop, ht, if_true]
      rw [ih attribs (output ++ [t]) (fun x hx => h x (by simp [hx]))]
      simp

theorem recordValueLoop_all_match (eh : ErrorHandling) (children : List Node)
    (k : Str) (rule : AttrRule) (values : List (Str × Comparator)) :
    ∀ (pairs : List (Str × Str)) (attribs : AttrMap) (seen : List Str)
      (output : List (Str × Str)),
      (∀ p ∈ pairs, (match lookupStr values p.1 with
        | some c => matchComparator c p.2
        | none => false) = true) →
      (∀ p ∈ pairs, seen.contains p.1 = false) →
      keysNodupB pairs = true →
      recordValueLoop eh children k rule values pairs attribs seen output =
        some (Sum.inr (attribs, output ++ pairs)) := by
  intro pairs
  induction pairs with
  | nil => intro attribs seen output _ _ _; simp [recordValueLoop]
  | cons p rest ih =>
      intro attribs seen output hmatch hseen hnodup
      obtain ⟨pk, pv⟩ := p
      have hs : seen.contains pk = false := hseen (pk, pv) (by simp)
      have hm := hmatch (pk, pv) (by simp)
      have hnd : (rest.any (fun q => q.1 == pk)) = false ∧
          keysNodupB rest = true := by
        simp only [keysNodupB, Bool.and_eq_true, Bool.not_eq_true'] at hnodup
        exact hnodup
      simp only [recordValueLoop, hs, Bool.false_eq_true, if_false, hm, if_true]
      rw [ih attribs (pk :: seen) (output ++ [(pk, pv)])
        (fun x hx => hmatch x (by simp [hx]))
        ?_ hnd.2]
      · simp
      · intro q hq
        have h1 : (q.1 == pk) = false := by
          have h := hnd.1
          rw [List.any_eq_false] at h
          simpa using h q hq
        have h2 : seen.contains q.1 = false := hseen q (by simp [hq])
        simp only [List.contains_cons, Bool.or_eq_false_iff]
        exact ⟨h1, h2⟩

/-- Claim C10 (implicit): sanitization of set- and record-mode attributes is
never the identity on the raw value: whether or not any violation occurred,
the attribute is rewritten as the join of the parsed surviving tokens, so
whitespace around tokens is removed, empty tokens are dropped, duplicate set
entries collapse to the first occurrence, and record entries that do not
split into exactly two nonempty parts disappear.  The first two parts state
the unconditional write-back for violation-free values (rules without
`maxEntries`, so the too-many handler is not involved); the last part
evaluates a violation-free set attribute whose raw text is rewritten
anyway. -/
theorem C10_collection_rewrite :
    (∀ (eh : ErrorHandling) (children : List Node) (attribs : AttrMap)
       (k v delim : Str) (values : Comparator) (rule : AttrRule),
        (∀ t ∈ parseSet v delim, matchComparator values t = true) →
        sanitizeTagAttributeSetValue eh children attribs k v rule delim none
            values =
          some (.cont (aset attribs k (jsJoin delim (parseSet v delim))))) ∧
    (∀ (eh : ErrorHandling) (children : List Node) (attribs : AttrMap)
       (k v es ps : Str) (values : List (Str × Comparator)) (rule : AttrRule),
        (∀ p ∈ parseRecord v es ps, (match lookupStr values p.1 with
          | some c => matchComparator c p.2
          | none => false) = true) →
        keysNodupB (parseRecord v es ps) = true →
        sanitizeTagAttributeRecordValue eh children attribs k v rule es ps
            none values =
          some (.cont (aset attribs k (jsJoin es
            ((parseRecord v es ps).map (fun p => p.1 ++ ps ++ p.2)))))) ∧
    (parseSet "  a  a  b ".toList " ".toList = ["a".toList, "b".toList] ∧
     sanitizeTagAttributeSetValue {} [] [(keyClass, "  a  a  b ".toList)]
        keyClass "  a  a  b ".toList ruleAnySimple " ".toList none
        (.strVal starStr) =
      some (.cont [(keyClass, "a b".toList)]) ∧
     "a b".toList ≠ "  a  a  b ".toList) := by
  refine ⟨?_, ?_, by decide, by exact rfl, by decide⟩
  · intro eh children attribs k v delim values rule h
    simp only [sanitizeTagAttributeSetValue, truthy, Bool.false_and,
      Bool.false_eq_true, if_false]
    rw [setValueLoop_all_match eh children k rule values _ attribs [] h]
    simp
  · intro eh children attribs k v es ps values rule hmatch hnodup
    simp only [sanitizeTagAttributeRecordValue, truthy, Bool.false_and,
      Bool.false_eq_true, if_false]
    rw [recordValueLoop_all_match eh children k rule values _ attribs [] []
      hmatch (by intro p hp; rfl) hnodup]
    simp

/-- Witness for C10: the two write-back statements applied at concrete
violation-free attributes. -/
theorem C10_witness :
    sanitizeTagAttributeSetValue {} [] [] keyClass "a b".toList ruleAnySimple
        " ".toList none (.strVal starStr) =
      some (.cont (aset [] keyClass
        (jsJoin " ".toList (parseSet "a b".toList " ".toList)))) ∧
    sanitizeTagAttributeRecordValue {} [] [] keyClass "k:v".toList
        ruleAnySimple ";".toList ":".toList none
        [("k".toList, Comparator.strVal starStr)] =
      some (.cont (aset [] keyClass (jsJoin ";".toList
        ((parseRecord "k:v".toList ";".toList ":".toList).map
          (fun p => p.1 ++ ":".toList ++ p.2))))) :=
  ⟨C10_collection_rewrite.1 {} [] [] keyClass "a b".toList " ".toList
      (.strVal starStr) ruleAnySimple (by decide),
   C10_collection_rewrite.2.1 {} [] [] keyClass "k:v".toList ";".toList
      ":".toList [("k".toList, Comparator.strVal starStr)] ruleAnySimple
      (by decide) (by decide)⟩

theorem lookupStr_aset (m : AttrMap) (k v : Str) :
    lookupStr (aset m k v) k = some v := by
  induction m with
  | nil => simp [aset, lookupStr]
  | cons p rest ih =>
      obtain ⟨k', v'⟩ := p
      by_cases h : k' == k
      · simp [aset, lookupStr, h]
      · simp only [aset, h, Bool.false_eq_true, if_false, lookupStr]
        exact ih

/-- Claim C6 (amended): set limits are enforced when they are positive, the
code guarding both checks with JavaScript truthiness (so a declared limit of
zero is never enforced — see the counterexample).  For `maxLength = m > 0`
and a longer value under the `trimExcess` strategy, the pipeline continues
exactly as if it had been handed the truncated value and map; for a positive
`topLevelLimits.children` and an overfull root under `discardElement` (the
handler's `false` report) the result is the empty fragment. -/
theorem C6_limits_enforced_when_positive :
    (∀ (eh : ErrorHandling) (children : List Node) (attribs : AttrMap)
       (k v : Str) (rule : AttrRule) (m : Nat),
      rule.maxLength = some m → m ≠ 0 → v.length > m →
      eh.attributeValueTooLong = some .trimExcess →
      sanitizeTagAttributeValue eh children attribs k v rule =
        sanitizeTagAttributeValue eh children (aset attribs k (v.take m)) k
          (v.take m) rule) ∧
    (∀ (opts : SanitizerOptions) (frag : List Node) (c : Nat),
      opts.topLevelLimits.children = some c → c ≠ 0 → frag.length > c →
      opts.errorHandling.tagChildren = some .discardElement →
      sanitizeHtml opts frag = some []) := by
  constructor
  · intro eh children attribs k v rule m hm hm0 hlen htrim
    have hcond : (truthy rule.maxLength &&
        decide (v.length > rule.maxLength.getD 0)) = true := by
      simp [truthy, hm, hm0, hlen]
    have hcond2 : (truthy rule.maxLength &&
        decide ((v.take m).length > rule.maxLength.getD 0)) = false := by
      have : (v.take m).length = m := by
        rw [List.length_take]
        omega
      simp [truthy, hm, this]
    have htake : v.take m ≠ [] := by
      have hv : v ≠ [] := by
        intro hv
        rw [hv] at hlen
        simp at hlen
      simp [List.take_eq_nil_iff]
      exact ⟨hm0, hv⟩
    conv_lhs => rw [sanitizeTagAttributeValue]
    conv_rhs => rw [sanitizeTagAttributeValue]
    rw [hm] at hcond hcond2
    simp only [hm, hcond, hcond2, if_true, Bool.false_eq_true, if_false,
      handleTagAttributeValueTooLongError, htrim, jsSlice]
    rw [lookupStr_aset]
    cases hv : v.take m with
    | nil => exact absurd hv htake
    | cons a t => rfl
  · intro opts frag c hc hc0 hlen hmode
    have hemp : frag.isEmpty = false := by
      cases frag with
      | nil => simp at hlen
      | cons a b => rfl
    rw [sanitizeHtml]
    have hcond : (truthy opts.topLevelLimits.children &&
        decide (frag.length > opts.topLevelLimits.children.getD 0)) = true := by
      simp [truthy, hc, hc0, hlen]
    simp only [hemp, Bool.false_eq_true, if_false, hcond, if_true,
      handleTagChildrenError, hmode]

/-- Claim C6 counterexample: a `maxLength` declared as zero and a top-level
children limit declared as zero are both set limits, yet neither is
enforced: the overlong value `"x"` is left untouched even though the
too-long handler is `trimExcess`, and a fragment with one child passes a
declared limit of zero untouched, because the source guards both checks with
JavaScript truthiness of the limit. -/
theorem C6_counterexample :
    ruleMaxLenZero.maxLength = some 0 ∧
    sanitizeTagAttributeValue ehTrim [] [(keyId, "x".toList)] keyId "x".toList
        ruleMaxLenZero = some (.cont [(keyId, "x".toList)]) ∧
    optsTopZero.topLevelLimits.children = some 0 ∧
    sanitizeHtml optsTopZero [Node.element tagDiv [] []] =
      some [Node.element tagDiv [] []] := by
  refine ⟨rfl, rfl, rfl, ?_⟩
  simp [sanitizeHtml, optsTopZero, truthy, walkList, sanitizeTag, lookupStr,
    sanitizeAttributes, enforceRequiredAttributes, nestingScanRev,
    SanitizerState.tagNesting]

/-- Witness for C6: the amended statement applied at a positive `maxLength`
of two with a three-character value, and at a positive top-level limit of
one with a two-child fragment. -/
theorem C6_witness :
    sanitizeTagAttributeValue ehTrim [] [(keyId, "abc".toList)] keyId
        "abc".toList { shape := .simple (.strVal starStr), maxLength := some 2 } =
      sanitizeTagAttributeValue ehTrim []
        (aset [(keyId, "abc".toList)] keyId ("abc".toList.take 2)) keyId
        ("abc".toList.take 2)
        { shape := .simple (.strVal starStr), maxLength := some 2 } ∧
    sanitizeHtml
        { tags := []
          topLevelLimits := { children := some 1 }
          errorHandling := { tagChildren := some .discardElement } }
        [Node.text "a".toList, Node.text "b".toList] = some [] :=
  ⟨C6_limits_enforced_when_positive.1 ehTrim [] [(keyId, "abc".toList)] keyId
      "abc".toList _ 2 rfl (by decide) (by decide) rfl,
   C6_limits_enforced_when_positive.2 _ _ 1 rfl (by decide) (by decide) rfl⟩

theorem unwrapFree_spec (eh : ErrorHandling) (h : unwrapFree eh = true) :
    optFree tagModeUnwrapFree eh.tag = true ∧
    optFree attrModeUnwrapFree eh.attr = true ∧
    optFree valueModeUnwrapFree eh.attributeValue = true ∧
    optFree tooLongModeUnwrapFree eh.attributeValueTooLong = true ∧
    optFree setModeUnwrapFree eh.attributeSetValue = true ∧
    optFree recModeUnwrapFree eh.attributeRecordValue = true ∧
    optFree manyModeUnwrapFree eh.attributeCollectionValueTooMany = true ∧
    optFree dupModeUnwrapFree eh.attributeRecordValueDuplicate = true := by
  simp only [unwrapFree, Bool.and_eq_true] at h
  tauto

theorem handleTagError_unwrapFree (children : List Node)
    (mode : Option TagErrorMode) (repl : List Node)
    (h : handleTagError children mode = some repl)
    (hf : optFree tagModeUnwrapFree mode = true) : repl = [] := by
  cases mode with
  | none => simp [handleTagError] at h
  | some m =>
      cases m
      · simp only [handleTagError, Option.some.injEq] at h
        exact h.symm
      · simp [optFree, tagModeUnwrapFree] at hf
      · simp [handleTagError] at h

theorem handleTagAttributeError_gone (children : List Node) (attribs : AttrMap)
    (k : Str) (mode : Option AttrErrorMode) (repl : List Node)
    (h : handleTagAttributeError children attribs k mode = some (.gone repl))
    (hf : optFree attrModeUnwrapFree mode = true) : repl = [] := by
  cases mode with
  | none => simp [handleTagAttributeError, handleTagError] at h
  | some m =>
      cases m with
      | discardAttribute => simp [handleTagAttributeError] at h
      | tagLevel tm =>
          simp only [handleTagAttributeError, Option.map_eq_some'] at h
          obtain ⟨r, hr, hg⟩ := h
          cases hg
          exact handleTagError_unwrapFree children (some tm) repl hr hf

theorem handleTagAttributeValueError_gone (children : List Node)
    (attribs : AttrMap) (k : Str) (rule : AttrRule)
    (mode : Option AttrValueErrorMode) (repl : List Node)
    (h : handleTagAttributeValueError children attribs k rule mode =
      some (.gone repl))
    (hf : optFree valueModeUnwrapFree mode = true) : repl = [] := by
  cases mode with
  | none => simp [handleTagAttributeValueError, handleTagAttributeError,
      handleTagError] at h
  | some m =>
      cases m with
      | applyDefaultValue =>
          simp only [handleTagAttributeValueError] at h
          cases hd : rule.defaultValue with
          | none => rw [hd] at h; simp at h
          | some d =>
              rw [hd] at h
              by_cases he : d == [] <;> simp [he] at h
      | attrLevel am =>
          simp only [handleTagAttributeValueError] at h
          exact handleTagAttributeError_gone children attribs k (some am) repl
            h hf

theorem handleTagAttributeValueTooLongError_gone (children : List Node)
    (attribs : AttrMap) (k value : Str) (rule : AttrRule)
    (mode : Option ValueTooLongErrorMode) (repl : List Node)
    (h : handleTagAttributeValueTooLongError children attribs k value rule
        mode = some (.gone repl))
    (hf : optFree tooLongModeUnwrapFree mode = true) : repl = [] := by
  cases mode with
  | none =>
      simp only [handleTagAttributeValueTooLongError] at h
      exact handleTagAttributeValueError_gone children attribs k rule none repl
        h rfl
  | some m =>
      cases m with
      | trimExcess => simp [handleTagAttributeValueTooLongError] at h
      | valueLevel vm =>
          simp only [handleTagAttributeValueTooLongError] at h
          exact handleTagAttributeValueError_gone children attribs k rule
            (some vm) repl h hf

theorem handleTagAttributeSetValueError_gone (children : List Node)
    (attribs : AttrMap) (k : Str) (rule : AttrRule)
    (mode : Option SetValueErrorMode) (repl : List Node)
    (h : handleTagAttributeSetValueError children attribs k rule mode =
      some (.gone repl))
    (hf : optFree setModeUnwrapFree mode = true) : repl = [] := by
  cases mode with
  | none =>
      simp only [handleTagAttributeSetValueError] at h
      exact handleTagAttributeValueError_gone children attribs k rule none repl
        h rfl
  | some m =>
      cases m with
      | dropValue => simp [handleTagAttributeSetValueError] at h
      | valueLevel vm =>
          simp only [handleTagAttributeSetValueError] at h
          exact handleTagAttributeValueError_gone children attribs k rule
            (some vm) repl h hf

theorem handleTagAttributeRecordValueError_gone (children : List Node)
    (attribs : AttrMap) (k : Str) (rule : AttrRule)
    (mode : Option RecordValueErrorMode) (repl : List Node)
    (h : handleTagAttributeRecordValueError children attribs k rule mode =
      some (.gone repl))
    (hf : optFree recModeUnwrapFree mode = true) : repl = [] := by
  cases mode with
  | none =>
      simp only [handleTagAttributeRecordValueError] at h
      exact handleTagAttributeValueError_gone children attribs k rule none repl
        h rfl
  | some m =>
      cases m with
      | dropPair => simp [handleTagAttributeRecordValueError] at h
      | valueLevel vm =>
          simp only [handleTagAttributeRecordValueError] at h
          exact handleTagAttributeValueError_gone children attribs k rule
            (some vm) repl h hf

theorem handleTagAttributeCollectionValueTooManyError_gone {α : Type}
    (children : List Node) (attribs : AttrMap) (k : Str) (coll : List α)
    (rule : AttrRule) (mode : Option TooManyErrorMode) (repl : List Node)
    (h : handleTagAttributeCollectionValueTooManyError children attribs k coll
        rule mode = some (.gone repl))
    (hf : optFree manyModeUnwrapFree mode = true) : repl = [] := by
  cases mode with
  | none =>
      simp only [handleTagAttributeCollectionValueTooManyError] at h
      cases hv : handleTagAttributeValueError children attribs k rule none with
      | none => rw [hv] at h; simp at h
      | some o =>
          rw [hv] at h
          cases o with
          | gone r =>
              simp only [Option.some.injEq, CollOutcome.gone.injEq] at h
              subst h
              exact handleTagAttributeValueError_gone children attribs k rule
                none r hv rfl
          | cont a => simp at h
  | some m =>
      cases m with
      | dropExtra => simp [handleTagAttributeCollectionValueTooManyError] at h
      | valueLevel vm =>
          simp only [handleTagAttributeCollectionValueTooManyError] at h
          cases hv : handleTagAttributeValueError children attribs k rule
              (some vm) with
          | none => rw [hv] at h; simp at h
          | some o =>
              rw [hv] at h
              cases o with
              | gone r =>
                  simp only [Option.some.injEq, CollOutcome.gone.injEq] at h
                  subst h
                  exact handleTagAttributeValueError_gone children attribs k
                    rule (some vm) r hv hf
              | cont a => simp at h

theorem handleTagAttributeRecordValueDuplicateError_gone (children : List Node)
    (attribs : AttrMap) (k dupKey : Str) (output : List (Str × Str))
    (rule : AttrRule) (mode : Option DuplicateErrorMode) (repl : List Node)
    (h : handleTagAttributeRecordValueDuplicateError children attribs k dupKey
        output rule mode = some (.gone repl))
    (hf : optFree dupModeUnwrapFree mode = true) : repl = [] := by
  cases mode with
  | none =>
      simp only [handleTagAttributeRecordValueDuplicateError] at h
      cases hv : handleTagAttributeValueError children attribs k rule none with
      | none => rw [hv] at h; simp at h
      | some o =>
          rw [hv] at h
          cases o with
          | gone r =>
              simp only [Option.some.injEq, DupOutcome.gone.injEq] at h
              subst h
              exact handleTagAttributeValueError_gone children attribs k rule
                none r hv rfl
          | cont a => simp at h
  | some m =>
      cases m with
      | dropDuplicates => simp [handleTagAttributeRecordValueDuplicateError] at h
      | keepDuplicates => simp [handleTagAttributeRecordValueDuplicateError] at h
      | keepFirst => simp [handleTagAttributeRecordValueDuplicateError] at h
      | keepLast => simp [handleTagAttributeRecordValueDuplicateError] at h
      | valueLevel vm =>
          simp only [handleTagAttributeRecordValueDuplicateError] at h
          cases hv : handleTagAttributeValueError children attribs k rule
              (some vm) with
          | none => rw [hv] at h; simp at h
          | some o =>
              rw [hv] at h
              cases o with
              | gone r =>
                  simp only [Option.some.injEq, DupOutcome.gone.injEq] at h
                  subst h
                  exact handleTagAttributeValueError_gone children attribs k
                    rule (some vm) r hv hf
              | cont a => simp at h

theorem sanitizeTag_inl (rule : Option TagRule) (children : List Node)
    (mode : Option TagErrorMode) (repl : List Node)
    (h : sanitizeTag rule children mode = some (Sum.inl repl))
    (hf : optFree tagModeUnwrapFree mode = true) : repl = [] := by
  cases rule with
  | some r => simp [sanitizeTag] at h
  | none =>
      simp only [sanitizeTag, Option.map_eq_some'] at h
      obtain ⟨r, hr, hg⟩ := h
      cases hg
      exact handleTagError_unwrapFree children mode repl hr hf

theorem sanitizeTagAttributeSimpleValue_gone (eh : ErrorHandling)
    (children : List Node) (attribs : AttrMap) (k v : Str) (rule : AttrRule)
    (cmp : Comparator) (repl : List Node)
    (h : sanitizeTagAttributeSimpleValue eh children attribs k v rule cmp =
      some (.gone repl))
    (hf : optFree valueModeUnwrapFree eh.attributeValue = true) : repl = [] := by
  simp only [sanitizeTagAttributeSimpleValue] at h
  split at h
  · simp at h
  · exact handleTagAttributeValueError_gone children attribs k rule
      eh.attributeValue repl h hf

theorem setValueLoop_gone (eh : ErrorHandling) (children : List Node)
    (k : Str) (rule : AttrRule) (values : Comparator)
    (hf : optFree setModeUnwrapFree eh.attributeSetValue = true) :
    ∀ (toks : List Str) (attribs : AttrMap) (output : List Str)
      (repl : List Node),
      setValueLoop eh children k rule values toks attribs output =
        some (Sum.inl repl) → repl = [] := by
  intro toks
  induction toks with
  | nil => intro attribs output repl h; simp [setValueLoop] at h
  | cons t rest ih =>
      intro attribs output repl h
      simp only [setValueLoop] at h
      split at h
      · exact ih _ _ _ h
      · cases hh : handleTagAttributeSetValueError children attribs k rule
            eh.attributeSetValue with
        | none => rw [hh] at h; simp at h
        | some o =>
            rw [hh] at h
            cases o with
            | gone r =>
                simp only [Option.some.injEq, Sum.inl.injEq] at h
                cases h
                exact handleTagAttributeSetValueError_gone children attribs k
                  rule eh.attributeSetValue _ hh hf
            | cont a => exact ih _ _ _ h

theorem recordValueLoop_gone (eh : ErrorHandling) (children : List Node)
    (k : Str) (rule : AttrRule) (values : List (Str × Comparator))
    (hfr : optFree recModeUnwrapFree eh.attributeRecordValue = true)
    (hfd : optFree dupModeUnwrapFree eh.attributeRecordValueDuplicate = true) :
    ∀ (pairs : List (Str × Str)) (attribs : AttrMap) (seen : List Str)
      (output : List (Str × Str)) (repl : List Node),
      recordValueLoop eh children k rule values pairs attribs seen output =
        some (Sum.inl repl) → repl = [] := by
  intro pairs
  induction pairs with
  | nil => intro attribs seen output repl h; simp [recordValueLoop] at h
  | cons p rest ih =>
      intro attribs seen output repl h
      obtain ⟨pk, pv⟩ := p
      simp only [recordValueLoop] at h
      have checkPairCase :
          ∀ (a : AttrMap) (out : List (Str × Str)),
            (let pairRule := lookupStr values pk
             let ok := match pairRule with
               | some pr => matchComparator pr pv
               | none => false
             if ok then
               recordValueLoop eh children k rule values rest a (pk :: seen)
                 (out ++ [(pk, pv)])
             else
               match handleTagAttributeRecordValueError children a k rule
                   eh.attributeRecordValue with
               | none => none
               | some (.gone r) => some (Sum.inl r)
               | some (.cont a') =>
                   recordValueLoop eh children k rule values rest a' seen out) =
              some (Sum.inl repl) → repl = [] := by
        intro a out hcp
        simp only at hcp
        split at hcp
        · exact ih _ _ _ _ hcp
        · cases hh : handleTagAttributeRecordValueError children a k rule
              eh.attributeRecordValue with
          | none => rw [hh] at hcp; simp at hcp
          | some o =>
              rw [hh] at hcp
              cases o with
              | gone r =>
                  simp only [Option.some.injEq, Sum.inl.injEq] at hcp
                  cases hcp
                  exact handleTagAttributeRecordValueError_gone children a k
                    rule eh.attributeRecordValue _ hh hfr
              | cont a' => exact ih _ _ _ _ hcp
      split at h
      · cases hh : handleTagAttributeRecordValueDuplicateError children attribs
            k pk output rule eh.attributeRecordValueDuplicate with
        | none => rw [hh] at h; simp at h
        | some o =>
            rw [hh] at h
            cases o with
            | gone r =>
                simp only [Option.some.injEq, Sum.inl.injEq] at h
                cases h
                exact handleTagAttributeRecordValueDuplicateError_gone children
                  attribs k pk output rule eh.attributeRecordValueDuplicate
                  _ hh hfd
            | cont a out localProceed =>
                by_cases hl : localProceed = true
                · rw [hl] at h
                  simp only [if_true] at h
                  exact checkPairCase a out h
                · rw [Bool.not_eq_true] at hl
                  rw [hl] at h
                  simp only [Bool.false_eq_true, if_false] at h
                  exact ih _ _ _ _ h
      · exact checkPairCase attribs output h

theorem sanitizeTagAttributeSetValue_gone (eh : ErrorHandling)
    (children : List Node) (attribs : AttrMap) (k v : Str) (rule : AttrRule)
    (delimiter : Str) (maxEntries : Option Nat) (values : Comparator)
    (repl : List Node)
    (h : sanitizeTagAttributeSetValue eh children attribs k v rule delimiter
        maxEntries values = some (.gone repl))
    (hfm : optFree manyModeUnwrapFree eh.attributeCollectionValueTooMany = true)
    (hfs : optFree setModeUnwrapFree eh.attributeSetValue = true) :
    repl = [] := by
  simp only [sanitizeTagAttributeSetValue] at h
  split at h
  · simp at h
  · next r heq =>
      simp only [Option.some.injEq, AttrOutcome.gone.injEq] at h
      cases h
      split at heq
      · exact handleTagAttributeCollectionValueTooManyError_gone children
          attribs k (parseSet v delimiter) rule
          eh.attributeCollectionValueTooMany _ heq hfm
      · simp at heq
  · next a1 i1 heq =>
      split at h
      · simp at h
      · next r hl =>
          simp only [Option.some.injEq, AttrOutcome.gone.injEq] at h
          cases h
          exact setValueLoop_gone eh children k rule values hfs i1 a1 [] _ hl
      · simp at h

theorem sanitizeTagAttributeRecordValue_gone (eh : ErrorHandling)
    (children : List Node) (attribs : AttrMap) (k v : Str) (rule : AttrRule)
    (entrySep pairSep : Str) (maxEntries : Option Nat)
    (values : List (Str × Comparator)) (repl : List Node)
    (h : sanitizeTagAttributeRecordValue eh children attribs k v rule entrySep
        pairSep maxEntries values = some (.gone repl))
    (hfm : optFree manyModeUnwrapFree eh.attributeCollectionValueTooMany = true)
    (hfr : optFree recModeUnwrapFree eh.attributeRecordValue = true)
    (hfd : optFree dupModeUnwrapFree eh.attributeRecordValueDuplicate = true) :
    repl = [] := by
  simp only [sanitizeTagAttributeRecordValue] at h
  split at h
  · simp at h
  · next r heq =>
      simp only [Option.some.injEq, AttrOutcome.gone.injEq] at h
      cases h
      split at heq
      · exact handleTagAttributeCollectionValueTooManyError_gone children
          attribs k (parseRecord v entrySep pairSep) rule
          eh.attributeCollectionValueTooMany _ heq hfm
      · simp at heq
  · next a1 i1 heq =>
      split at h
      · simp at h
      · next r hl =>
          simp only [Option.some.injEq, AttrOutcome.gone.injEq] at h
          cases h
          exact recordValueLoop_gone eh children k rule values hfr hfd i1 a1
            [] [] _ hl
      · simp at h

theorem sanitizeTagAttributeValue_gone (eh : ErrorHandling)
    (children : List Node) (attribs : AttrMap) (k v : Str) (rule : AttrRule)
    (repl : List Node)
    (h : sanitizeTagAttributeValue eh children attribs k v rule =
      some (.gone repl))
    (hU : unwrapFree eh = true) : repl = [] := by
  obtain ⟨hft, hfa, hfv, hfl, hfs, hfr, hfm, hfd⟩ := unwrapFree_spec eh hU
  simp only [sanitizeTagAttributeValue] at h
  split at h
  · split at h
    · simp at h
    · next r heq =>
        simp only [Option.some.injEq, AttrOutcome.gone.injEq] at h
        cases h
        exact handleTagAttributeValueTooLongError_gone children attribs k v
          rule eh.attributeValueTooLong _ heq hfl
    · next a1 heq =>
        split at h
        · simp at h
        · simp at h
        · next v1 hne hlk =>
            split at h
            · next es ps me vals hsh =>
                exact sanitizeTagAttributeRecordValue_gone eh children a1 k v1
                  rule es ps me vals repl h hfm hfr hfd
            · next d me vals hsh =>
                exact sanitizeTagAttributeSetValue_gone eh children a1 k v1
                  rule d me vals repl h hfm hfs
            · next cmp hsh =>
                exact sanitizeTagAttributeSimpleValue_gone eh children a1 k v1
                  rule cmp repl h hfv
  · split at h
    · next es ps me vals hsh =>
        exact sanitizeTagAttributeRecordValue_gone eh children attribs k v
          rule es ps me vals repl h hfm hfr hfd
    · next d me vals hsh =>
        exact sanitizeTagAttributeSetValue_gone eh children attribs k v rule d
          me vals repl h hfm hfs
    · next cmp hsh =>
        exact sanitizeTagAttributeSimpleValue_gone eh children attribs k v
          rule cmp repl h hfv

theorem sanitizeTagAttribute_gone (children : List Node) (attribs : AttrMap)
    (k : Str) (rule : Option AttrRule) (mode : Option AttrErrorMode)
    (repl : List Node)
    (h : sanitizeTagAttribute children attribs k rule mode = some (.gone repl))
    (hf : optFree attrModeUnwrapFree mode = true) : repl = [] := by
  cases rule with
  | some r => simp [sanitizeTagAttribute] at h
  | none =>
      simp only [sanitizeTagAttribute] at h
      split at h
      · simp at h
      · next r heq =>
          simp only [Option.some.injEq, TagAttrStep.gone.injEq] at h
          cases h
          exact handleTagAttributeError_gone children attribs k mode _ heq hf
      · simp at h

theorem sanitizeAttributesLoop_gone (eh : ErrorHandling) (children : List Node)
    (rules : Option (List (Str × AttrRule)))
    (hU : unwrapFree eh = true) :
    ∀ (keys : List Str) (attribs : AttrMap) (repl : List Node),
      sanitizeAttributesLoop eh children rules keys attribs =
        some (.gone repl) → repl = [] := by
  obtain ⟨hft, hfa, hfv, hfl, hfs, hfr, hfm, hfd⟩ := unwrapFree_spec eh hU
  intro keys
  induction keys with
  | nil => intro attribs repl h; simp [sanitizeAttributesLoop] at h
  | cons k rest ih =>
      intro attribs repl h
      simp only [sanitizeAttributesLoop] at h
      split at h
      · simp at h
      · next r heq =>
          simp only [Option.some.injEq, AttrOutcome.gone.injEq] at h
          cases h
          exact sanitizeTagAttribute_gone children attribs k _ eh.attr _ heq
            hfa
      · next a heq => exact ih _ _ h
      · next heq =>
          split at h
          · simp at h
          · next r hr =>
              split at h
              · simp at h
              · next rr hv =>
                  simp only [Option.some.injEq, AttrOutcome.gone.injEq] at h
                  cases h
                  exact sanitizeTagAttributeValue_gone eh children attribs k
                    _ r _ hv hU
              · next a hv => exact ih _ _ h

theorem enforceRequiredLoop_gone (eh : ErrorHandling) (children : List Node)
    (hfv : optFree valueModeUnwrapFree eh.attributeValue = true) :
    ∀ (rs : List (Str × AttrRule)) (attribs : AttrMap) (repl : List Node),
      enforceRequiredLoop eh children rs attribs = some (.gone repl) →
      repl = [] := by
  intro rs
  induction rs with
  | nil => intro attribs repl h; simp [enforceRequiredLoop] at h
  | cons p rest ih =>
      intro attribs repl h
      obtain ⟨k, r⟩ := p
      simp only [enforceRequiredLoop] at h
      split at h
      · exact ih _ _ h
      · split at h
        · split at h
          · simp at h
          · next rr heq =>
              simp only [Option.some.injEq, AttrOutcome.gone.injEq] at h
              cases h
              exact handleTagAttributeValueError_gone children attribs k r
                eh.attributeValue _ heq hfv
          · next a heq => exact ih _ _ h
        · exact ih _ _ h

theorem enforceRequiredAttributes_gone (eh : ErrorHandling)
    (children : List Node) (rules : Option (List (Str × AttrRule)))
    (attribs : AttrMap) (repl : List Node)
    (h : enforceRequiredAttributes eh children rules attribs =
      some (.gone repl))
    (hU : unwrapFree eh = true) : repl = [] := by
  obtain ⟨hft, hfa, hfv, hfl, hfs, hfr, hfm, hfd⟩ := unwrapFree_spec eh hU
  cases rules with
  | none => simp [enforceRequiredAttributes] at h
  | some rs =>
      simp only [enforceRequiredAttributes] at h
      exact enforceRequiredLoop_gone eh children hfv rs attribs repl h

theorem sanitizeAttributes_gone (eh : ErrorHandling) (children : List Node)
    (rules : Option (List (Str × AttrRule))) (attribs : AttrMap)
    (repl : List Node)
    (h : sanitizeAttributes eh children rules attribs = some (.gone repl))
    (hU : unwrapFree eh = true) : repl = [] := by
  simp only [sanitizeAttributes] at h
  split at h
  · exact enforceRequiredAttributes_gone eh children rules attribs repl h hU
  · split at h
    · simp at h
    · next r heq =>
        simp only [Option.some.injEq, AttrOutcome.gone.injEq] at h
        cases h
        exact sanitizeAttributesLoop_gone eh children rules hU _ _ _ heq
    · next a heq =>
        exact enforceRequiredAttributes_gone eh children rules a repl h hU

theorem sanitizeTag_inr (rule : Option TagRule) (children : List Node)
    (mode : Option TagErrorMode) (r : TagRule)
    (h : sanitizeTag rule children mode = some (Sum.inr r)) :
    rule = some r := by
  cases rule with
  | some r0 =>
      simp only [sanitizeTag, Option.some.injEq, Sum.inr.injEq] at h
      rw [h]
  | none =>
      simp only [sanitizeTag, Option.map_eq_some'] at h
      obtain ⟨x, _, hx⟩ := h
      cases hx

theorem nestingScanRev_ok (tags : List (Str × TagRule)) :
    ∀ (fr fs : List (Str × Nat)), nestingScanRev tags fr = .ok fs →
      fs = fr.map (fun p => (p.1, p.2 + 1)) ∧
      ∀ p ∈ fr, ∀ r, lookupStr tags p.1 = some r →
        truthy r.limits.nesting = true →
        p.2 + 1 ≤ r.limits.nesting.getD 0 := by
  intro fr
  induction fr with
  | nil =>
      intro fs h
      simp only [nestingScanRev, NestScan.ok.injEq] at h
      exact ⟨h.symm, by simp⟩
  | cons p rest ih =>
      intro fs h
      obtain ⟨k, v⟩ := p
      simp only [nestingScanRev] at h
      split at h
      · cases h
      · next hcond =>
          split at h
          · cases h
          · next fs' hrest =>
              simp only [NestScan.ok.injEq] at h
              obtain ⟨hshape, hbound⟩ := ih fs' hrest
              refine ⟨?_, ?_⟩
              · rw [← h, hshape]
                simp
              · intro q hq r hr htr
                rcases List.mem_cons.mp hq with rfl | hq'
                · have hlim : (match lookupStr tags (k, v).1 with
                      | some r => r.limits.nesting
                      | none => none) = r.limits.nesting := by
                    rw [hr]
                  rw [hlim] at hcond
                  rw [htr] at hcond
                  simp only [Bool.true_and, Bool.not_eq_true,
                    decide_eq_false_iff_not, not_lt] at hcond
                  exact hcond
                · exact hbound q hq' r hr htr

theorem handleTagChildrenError_cont_length (children : List Node)
    (maxChildren : Nat) (mode : Option TagChildrenErrorMode)
    (out : List Node)
    (h : handleTagChildrenError children maxChildren mode = some (.cont out)) :
    out.length ≤ children.length ∧
    (children.length > maxChildren → out.length ≤ maxChildren) := by
  unfold handleTagChildrenError at h
  cases mode with
  | none => simp at h
  | some m =>
      cases m <;> simp only [Option.some.injEq] at h
      · cases h
      · cases h
        constructor
        · simp [List.length_drop]
        · intro hgt
          simp [List.length_drop]
          omega
      · cases h
        constructor
        · simp [List.length_take]
        · intro hgt
          simp [List.length_take]
          omega
      · cases h

theorem walkList_invariants (opts : SanitizerOptions)
    (hU : unwrapFree opts.errorHandling = true) :
    ∀ (n : Nat) (l : List Node) (st : SanitizerState) (out : List Node),
      sizeOf l ≤ n → walkList opts l st = some out →
      nodesAllowed opts.tags out = true ∧
      out.length ≤ l.length ∧
      nodesLimitsOk opts.tags out = true ∧
      (∀ k v, (k, v) ∈ st.tagNesting → ∀ r, lookupStr opts.tags k = some r →
        truthy r.limits.nesting = true →
        (listElemDepth out = 0 ∨
          listElemDepth out + v ≤ r.limits.nesting.getD 0)) := by
  obtain ⟨hft, hfa, hfv, hfl, hfs, hfr, hfm, hfd⟩ :=
    unwrapFree_spec opts.errorHandling hU
  intro n
  induction n with
  | zero =>
      intro l st out hsz
      cases l with
      | nil => simp at hsz
      | cons a b => simp at hsz
  | succ n ih =>
      intro l st out hsz h
      cases l with
      | nil =>
          simp only [walkList, Option.some.injEq] at h
          subst h
          exact ⟨rfl, by simp, rfl, fun k v _ r _ _ => Or.inl rfl⟩
      | cons nd rest =>
          have hszrest : sizeOf rest ≤ n := by
            cases nd <;> simp only [List.cons.sizeOf_spec,
              Node.element.sizeOf_spec, Node.comment.sizeOf_spec,
              Node.text.sizeOf_spec] at hsz <;> omega
          cases nd with
          | text s =>
              simp only [walkList] at h
              split at h
              · simp at h
              · next tail htail =>
                  simp only [Option.some.injEq] at h
                  subst h
                  obtain ⟨ha, hl, hlim, hfrB⟩ := ih rest st tail hszrest htail
                  refine ⟨?_, ?_, ?_, ?_⟩
                  · simp [nodesAllowed, nodeAllowed, ha]
                  · simp only [List.length_cons]; omega
                  · simp [nodesLimitsOk, nodeLimitsOk, hlim]
                  · intro k v hkv r hr htr
                    have hd := hfrB k v hkv r hr htr
                    simp only [listElemDepth, nodeElemDepth, Nat.zero_max]
                    exact hd
          | comment s =>
              simp only [walkList] at h
              split at h
              · split at h
                · simp at h
                · next tail htail =>
                    simp only [Option.some.injEq] at h
                    subst h
                    obtain ⟨ha, hl, hlim, hfrB⟩ := ih rest st tail hszrest htail
                    refine ⟨?_, ?_, ?_, ?_⟩
                    · simp [nodesAllowed, nodeAllowed, ha]
                    · simp only [List.length_cons]; omega
                    · simp [nodesLimitsOk, nodeLimitsOk, hlim]
                    · intro k v hkv r hr htr
                      have hd := hfrB k v hkv r hr htr
                      simp only [listElemDepth, nodeElemDepth, Nat.zero_max]
                      exact hd
              · obtain ⟨ha, hl, hlim, hfrB⟩ := ih rest st out hszrest h
                refine ⟨ha, by simp only [List.length_cons]; omega, hlim, hfrB⟩
          | element tag attribs children =>
              have hszch : sizeOf children ≤ n := by
                simp only [List.cons.sizeOf_spec, Node.element.sizeOf_spec]
                  at hsz
                omega
              simp only [walkList] at h
              split at h
              · -- top-level nesting violation: element detached or throw
                split at h
                · simp at h
                · obtain ⟨ha, hl, hlim, hfrB⟩ := ih rest st out hszrest h
                  refine ⟨ha, by simp only [List.length_cons]; omega, hlim,
                    hfrB⟩
              · -- no top-level violation
                split at h
                · simp at h
                · -- tag handler removed or unwrapped the element
                  next repl heq =>
                    split at h
                    · simp at h
                    · next tail htail =>
                        simp only [Option.some.injEq] at h
                        have hrepl : repl = [] :=
                          sanitizeTag_inl _ _ _ _ heq hft
                        rw [hrepl] at h
                        simp only [List.nil_append] at h
                        subst h
                        obtain ⟨ha, hl, hlim, hfrB⟩ :=
                          ih rest st tail hszrest htail
                        refine ⟨ha, by simp only [List.length_cons]; omega,
                          hlim, hfrB⟩
                · -- tag admitted
                  next rule heq =>
                    have hlook : lookupStr opts.tags tag = some rule :=
                      sanitizeTag_inr _ _ _ _ heq
                    split at h
                    · simp at h
                    · -- attribute pipeline removed the element
                      next repl heqA =>
                        split at h
                        · simp at h
                        · next tail htail =>
                            simp only [Option.some.injEq] at h
                            have hrepl : repl = [] :=
                              sanitizeAttributes_gone _ _ _ _ _ heqA hU
                            rw [hrepl] at h
                            simp only [List.nil_append] at h
                            subst h
                            obtain ⟨ha, hl, hlim, hfrB⟩ :=
                              ih rest st tail hszrest htail
                            refine ⟨ha,
                              by simp only [List.length_cons]; omega, hlim,
                              hfrB⟩
                    · -- attributes done, element continues
                      next a heqA =>
                        split at h
                        · simp at h
                        · -- children handler discarded the element
                          obtain ⟨ha, hl, hlim, hfrB⟩ :=
                            ih rest st out hszrest h
                          refine ⟨ha, by simp only [List.length_cons]; omega,
                            hlim, hfrB⟩
                        · -- children possibly trimmed
                          next children1 hCL =>
                            have hch1 : sizeOf children1 ≤ sizeOf children ∧
                                children1.length ≤ children.length ∧
                                (∀ c, rule.limits.children = some c → c ≠ 0 →
                                  children1.length ≤ c) := by
                              split at hCL
                              · next hcond =>
                                  obtain ⟨h1, h2⟩ :=
                                    handleTagChildrenError_cont_length _ _ _ _
                                      hCL
                                  refine ⟨handleTagChildrenError_sizeOf_le _ _
                                    _ _ hCL, h1, ?_⟩
                                  intro c hc hc0
                                  rw [Bool.and_eq_true] at hcond
                                  have hgt := of_decide_eq_true hcond.2
                                  rw [hc] at hgt
                                  simp only [Option.getD_some] at hgt
                                  have := h2 (by rw [hc]; simpa using hgt)
                                  rw [hc] at this
                                  simpa using this
                              · next hcond =>
                                  cases hCL
                                  refine ⟨Nat.le_refl _, Nat.le_refl _, ?_⟩
                                  intro c hc hc0
                                  rw [Bool.not_eq_true, Bool.and_eq_false_iff]
                                    at hcond
                                  rcases hcond with hcond | hcond
                                  · rw [hc] at hcond
                                    simp [truthy, hc0] at hcond
                                  · have := of_decide_eq_false hcond
                                    rw [hc] at this
                                    simpa using Nat.le_of_not_lt this
                            split at h
                            · -- per-tag nesting violation
                              split at h
                              · simp at h
                              · obtain ⟨ha, hl, hlim, hfrB⟩ :=
                                  ih rest st out hszrest h
                                refine ⟨ha,
                                  by simp only [List.length_cons]; omega,
                                  hlim, hfrB⟩
                            · -- nesting scan passed
                              next fs hNS =>
                                split at h
                                · simp at h
                                · next kids hkids =>
                                    split at h
                                    · simp at h
                                    · next tail htail =>
                                        simp only [Option.some.injEq] at h
                                        subst h
                                        obtain ⟨hshape, hscanB⟩ :=
                                          nestingScanRev_ok opts.tags _ _ hNS
                                        have hmem2 : ∀ k v,
                                            (k, v) ∈ st.tagNesting →
                                            (k, v + 1) ∈
                                              fs.reverse ++ [(tag, 0)] := by
                                          intro k v hkv
                                          refine List.mem_append.mpr
                                            (Or.inl ?_)
                                          rw [List.mem_reverse, hshape]
                                          refine List.mem_map.mpr
                                            ⟨(k, v), ?_, rfl⟩
                                          simpa using hkv
                                        obtain ⟨haK, hlK, hlimK, hfrK⟩ :=
                                          ih children1
                                            ⟨st.rootNesting + 1,
                                              fs.reverse ++ [(tag, 0)]⟩ kids
                                            (Nat.le_trans hch1.1 hszch) hkids
                                        obtain ⟨haT, hlT, hlimT, hfrT⟩ :=
                                          ih rest st tail hszrest htail
                                        refine ⟨?_, ?_, ?_, ?_⟩
                                        · simp [nodesAllowed, nodeAllowed,
                                            hlook, haK, haT]
                                        · simp only [List.length_cons]
                                          omega
                                        · have hself : nodeLimitsOk opts.tags
                                              (Node.element tag a kids) =
                                              true := by
                                            simp only [nodeLimitsOk, hlook,
                                              Bool.and_eq_true]
                                            refine ⟨⟨?_, ?_⟩, hlimK⟩
                                            · split
                                              · next htc =>
                                                  simp only [decide_eq_true_eq]
                                                  cases hc :
                                                      rule.limits.children with
                                                  | none =>
                                                      rw [hc] at htc
                                                      simp [truthy] at htc
                                                  | some c =>
                                                      rw [hc] at htc
                                                      simp only [truthy,
                                                        bne_iff_ne, ne_eq]
                                                        at htc
                                                      have := hch1.2.2 c hc
                                                        (by simpa using htc)
                                                      simp only [hc,
                                                        Option.getD_some]
                                                      omega
                                              · rfl
                                            · split
                                              · next htn =>
                                                  simp only [decide_eq_true_eq]
                                                  have hdk := hfrK tag 0
                                                    (by simp) rule hlook htn
                                                  rcases hdk with hdk | hdk
                                                  · omega
                                                  · omega
                                              · rfl
                                          simp [nodesLimitsOk, hself, hlimT]
                                        · intro k v hkv r hr htr
                                          have hscan : v + 1 ≤
                                              r.limits.nesting.getD 0 := by
                                            refine hscanB (k, v) ?_ r hr htr
                                            simpa using hkv
                                          have hb1 := hfrK k (v + 1)
                                            (hmem2 k v hkv) r hr htr
                                          have hb2 := hfrT k v hkv r hr htr
                                          refine Or.inr ?_
                                          simp only [listElemDepth,
                                            nodeElemDepth]
                                          rcases max_choice
                                              (1 + listElemDepth kids)
                                              (listElemDepth tail) with
                                            hmx | hmx <;> rw [hmx] <;>
                                            rcases hb1 with hb1 | hb1 <;>
                                            rcases hb2 with hb2 | hb2 <;>
                                            omega

/-- Claim C1 (amended): after a run of `sanitizeHtml` that completes without
a thrown error, every element in the output has a tag that is a key of
`P.tags`, provided no error-handling slot is set to `unwrapElement`.  With
`unwrapElement` the guarantee fails: the walker's sibling-snapshot recursion
skips the children spliced up by an unwrap, so disallowed-tag elements among
them remain in the output unexamined (see the counterexample). -/
theorem C1_wellFormedness_amended (opts : SanitizerOptions)
    (frag out : List Node)
    (hU : unwrapFree opts.errorHandling = true)
    (h : sanitizeHtml opts frag = some out) :
    nodesAllowed opts.tags out = true := by
  unfold sanitizeHtml at h
  dsimp only at h
  split at h
  · simp only [Option.some.injEq] at h
    subst h
    rfl
  · split at h
    · split at h
      · simp at h
      · simp only [Option.some.injEq] at h
        subst h
        rfl
      · next frag1 heq =>
          exact (walkList_invariants opts hU (sizeOf frag1) frag1 _ out
            (Nat.le_refl _) h).1
    · exact (walkList_invariants opts hU (sizeOf frag) frag _ out
        (Nat.le_refl _) h).1

/-- Claim C1 counterexample: with the tag strategy `unwrapElement` and
`bad` nested inside `bad`, the outer disallowed element is unwrapped, its
child is spliced into the parent behind the walker's sibling snapshot, and
the run completes with a disallowed `bad` element still in the output. -/
theorem C1_counterexample :
    sanitizeHtml optsUnwrap fragNestedBad =
      some [Node.element tagBad [] [Node.text "x".toList]] ∧
    nodesAllowed optsUnwrap.tags
      [Node.element tagBad [] [Node.text "x".toList]] = false := by
  constructor
  · simp [sanitizeHtml, fragNestedBad, optsUnwrap, walkList, sanitizeTag,
      handleTagError, lookupStr, truthy, tagDiv, tagBad]
  · rfl

/-- Witness for C1: a policy discarding disallowed tags, applied to a `div`
containing a `script`, yields a well-formed output. -/
theorem C1_witness :
    unwrapFree optsDiscard.errorHandling = true ∧
    sanitizeHtml optsDiscard fragDivScript =
      some [Node.element tagDiv [] [Node.text "t".toList]] ∧
    nodesAllowed optsDiscard.tags
      [Node.element tagDiv [] [Node.text "t".toList]] = true := by
  have hrun : sanitizeHtml optsDiscard fragDivScript =
      some [Node.element tagDiv [] [Node.text "t".toList]] := by
    simp [sanitizeHtml, fragDivScript, optsDiscard, walkList, sanitizeTag,
      handleTagError, lookupStr, truthy, tagDiv, tagScript,
      sanitizeAttributes, enforceRequiredAttributes, nestingScanRev]
  exact ⟨rfl, hrun,
    C1_wellFormedness_amended optsDiscard fragDivScript _ rfl hrun⟩

/-- Claim C3 (amended): after a run of `sanitizeHtml` that completes without
a thrown error, and provided no error-handling slot is set to
`unwrapElement`, no element whose tag rule declares a positive
`limits.children` has more children than that limit, and below every element
whose tag rule declares a positive `limits.nesting` no descendant element
sits deeper than that limit (the per-tag ancestor-chain bound the walker
tracks).  A zero limit is never enforced (truthiness), and with
`unwrapElement` a later unwrap of a child splices that child's children into
the already-checked parent, breaking the bound (see the counterexample). -/
theorem C3_limit_soundness_amended (opts : SanitizerOptions)
    (frag out : List Node)
    (hU : unwrapFree opts.errorHandling = true)
    (h : sanitizeHtml opts frag = some out) :
    nodesLimitsOk opts.tags out = true := by
  unfold sanitizeHtml at h
  dsimp only at h
  split at h
  · simp only [Option.some.injEq] at h
    subst h
    rfl
  · split at h
    · split at h
      · simp at h
      · simp only [Option.some.injEq] at h
        subst h
        rfl
      · next frag1 heq =>
          exact (walkList_invariants opts hU (sizeOf frag1) frag1 _ out
            (Nat.le_refl _) h).2.2.1
    · exact (walkList_invariants opts hU (sizeOf frag) frag _ out
        (Nat.le_refl _) h).2.2.1

/-- Claim C3 counterexample: `div` has a children limit of one and holds one
disallowed child with two children; the walker checks the count before
recursing, the child is then unwrapped, and the completed run leaves the
`div` with two children, over its declared limit. -/
theorem C3_counterexample :
    sanitizeHtml optsChildLimitUnwrap fragDivBadTwo =
      some [Node.element tagDiv []
        [Node.text "a".toList, Node.text "b".toList]] ∧
    nodesLimitsOk optsChildLimitUnwrap.tags
      [Node.element tagDiv []
        [Node.text "a".toList, Node.text "b".toList]] = false := by
  constructor
  · simp [sanitizeHtml, fragDivBadTwo, optsChildLimitUnwrap, walkList,
      sanitizeTag, handleTagError, lookupStr, truthy, tagDiv, tagBad,
      sanitizeAttributes, enforceRequiredAttributes, nestingScanRev]
  · rfl

/-- Witness for C3: the discarding variant of the child-limit policy run on
a `div` with a single text child satisfies the limit predicate. -/
theorem C3_witness :
    unwrapFree optsChildLimitDiscard.errorHandling = true ∧
    sanitizeHtml optsChildLimitDiscard
      [Node.element tagDiv [] [Node.text "a".toList]] =
      some [Node.element tagDiv [] [Node.text "a".toList]] ∧
    nodesLimitsOk optsChildLimitDiscard.tags
      [Node.element tagDiv [] [Node.text "a".toList]] = true := by
  have hrun : sanitizeHtml optsChildLimitDiscard
      [Node.element tagDiv [] [Node.text "a".toList]] =
      some [Node.element tagDiv [] [Node.text "a".toList]] := by
    simp [sanitizeHtml, optsChildLimitDiscard, walkList, sanitizeTag,
      handleTagError, lookupStr, truthy, tagDiv, sanitizeAttributes,
      enforceRequiredAttributes, nestingScanRev]
  exact ⟨rfl, hrun,
    C3_limit_soundness_amended optsChildLimitDiscard _ _ rfl hrun⟩

theorem lookupStr_aset_ne (m : AttrMap) (k k' v : Str) (h : (k' == k) = false) :
    lookupStr (aset m k v) k' = lookupStr m k' := by
  induction m with
  | nil =>
      simp only [aset, lookupStr]
      rw [BEq.comm] at h
      simp [h]
  | cons p rest ih =>
      obtain ⟨k0, v0⟩ := p
      by_cases h0 : k0 == k
      · have hne : (k0 == k') = false := by
          have h1 : k0 = k := by simpa using h0
          subst h1
          rw [BEq.comm]
          exact h
        simp [aset, h0, lookupStr, hne]
      · simp only [aset, h0, Bool.false_eq_true, if_false, lookupStr]
        by_cases h1 : k0 == k'
        · simp [h1]
        · simp only [h1, Bool.false_eq_true, if_false]
          exact ih

theorem lookupStr_adel_ne (m : AttrMap) (k k' : Str) (h : (k' == k) = false) :
    lookupStr (adel m k) k' = lookupStr m k' := by
  induction m with
  | nil => simp [adel]
  | cons p rest ih =>
      obtain ⟨k0, v0⟩ := p
      by_cases h0 : k0 == k
      · have h1 : k0 = k := by simpa using h0
        subst h1
        have hne : (k0 == k') = false := by
          rw [BEq.comm]
          exact h
        simp [adel, lookupStr, hne]
      · simp only [adel, h0, Bool.false_eq_true, if_false, lookupStr]
        by_cases h1 : k0 == k'
        · simp [h1]
        · simp only [h1, Bool.false_eq_true, if_false]
          exact ih

theorem keysNodupB_cons_spec {α : Type} (k : Str) (v : α)
    (m : List (Str × α)) (h : keysNodupB ((k, v) :: m) = true) :
    (∀ p ∈ m, (p.1 == k) = false) ∧ keysNodupB m = true := by
  simp only [keysNodupB, Bool.and_eq_true, Bool.not_eq_true'] at h
  refine ⟨?_, h.2⟩
  intro p hp
  have := h.1
  rw [List.any_eq_false] at this
  simpa using this p hp

theorem lookupStr_some_mem {α : Type} (m : List (Str × α)) (k : Str) (w : α)
    (h : lookupStr m k = some w) : ∃ q ∈ m, (q.1 == k) = true := by
  induction m with
  | nil => simp [lookupStr] at h
  | cons q qs ih =>
      obtain ⟨kq, vq⟩ := q
      by_cases hq : kq == k
      · exact ⟨(kq, vq), by simp, hq⟩
      · simp only [lookupStr, hq, Bool.false_eq_true, if_false] at h
        obtain ⟨q', hq', hq2⟩ := ih h
        exact ⟨q', by simp [hq'], hq2⟩

theorem mem_aset (m : AttrMap) (k v : Str) (p : Str × Str)
    (hp : p ∈ aset m k v) : p ∈ m ∨ (p.1 == k) = true := by
  induction m with
  | nil =>
      simp only [aset] at hp
      rcases List.mem_singleton.mp hp with rfl
      exact Or.inr (by simp)
  | cons q qs ih =>
      obtain ⟨kq, vq⟩ := q
      by_cases hq : kq == k
      · simp only [aset, hq, if_true] at hp
        rcases List.mem_cons.mp hp with rfl | hp'
        · exact Or.inr hq
        · exact Or.inl (by simp [hp'])
      · simp only [aset, hq, Bool.false_eq_true, if_false] at hp
        rcases List.mem_cons.mp hp with rfl | hp'
        · exact Or.inl (by simp)
        · rcases ih hp' with h | h
          · exact Or.inl (by simp [h])
          · exact Or.inr h

theorem lookupStr_adel_self (m : AttrMap) (k : Str)
    (hnd : keysNodupB m = true) : lookupStr (adel m k) k = none := by
  induction m with
  | nil => simp [adel, lookupStr]
  | cons p rest ih =>
      obtain ⟨k0, v0⟩ := p
      obtain ⟨hall, hrest⟩ := keysNodupB_cons_spec k0 v0 rest hnd
      by_cases h0 : k0 == k
      · simp only [adel, h0, if_true]
        have h1 : k0 = k := by simpa using h0
        subst h1
        cases hl : lookupStr rest k0 with
        | none => rfl
        | some w =>
            exfalso
            obtain ⟨q, hq, hq2⟩ := lookupStr_some_mem rest k0 w hl
            rw [hall q hq] at hq2
            cases hq2
      · simp only [adel, h0, Bool.false_eq_true, if_false, lookupStr, h0]
        exact ih hrest

theorem aset_self (m : AttrMap) (k v : Str) (h : lookupStr m k = some v) :
    aset m k v = m := by
  induction m with
  | nil => simp [lookupStr] at h
  | cons p rest ih =>
      obtain ⟨k0, v0⟩ := p
      by_cases h0 : k0 == k
      · simp only [lookupStr, h0, if_true, Option.some.injEq] at h
        subst h
        simp [aset, h0]
      · simp only [lookupStr, h0, Bool.false_eq_true, if_false] at h
        simp [aset, h0, ih h]

theorem adel_absent (m : AttrMap) (k : Str) (h : lookupStr m k = none) :
    adel m k = m := by
  induction m with
  | nil => simp [adel]
  | cons p rest ih =>
      obtain ⟨k0, v0⟩ := p
      by_cases h0 : k0 == k
      · simp [lookupStr, h0] at h
      · simp only [lookupStr, h0, Bool.false_eq_true, if_false] at h
        simp [adel, h0, ih h]

theorem keysNodupB_aset (m : AttrMap) (k v : Str)
    (h : keysNodupB m = true) : keysNodupB (aset m k v) = true := by
  induction m with
  | nil => simp [aset, keysNodupB]
  | cons p rest ih =>
      obtain ⟨k0, v0⟩ := p
      obtain ⟨hall, hrest⟩ := keysNodupB_cons_spec k0 v0 rest h
      by_cases h0 : k0 == k
      · simp only [aset, h0, if_true, keysNodupB, Bool.and_eq_true,
          Bool.not_eq_true']
        refine ⟨?_, hrest⟩
        rw [List.any_eq_false]
        intro p hp
        simpa using hall p hp
      · simp only [aset, h0, Bool.false_eq_true, if_false, keysNodupB,
          Bool.and_eq_true, Bool.not_eq_true']
        refine ⟨?_, ih hrest⟩
        rw [List.any_eq_false]
        intro p hp
        rcases mem_aset rest k v p hp with hmem | hk
        · simpa using hall p hmem
        · have h1 : p.1 = k := by simpa using hk
          simp only [bne_iff_ne, ne_eq, decide_eq_false_iff_not, h1]
          intro hk0
          have h2 : k = k0 := by simpa using hk0
          exact absurd (by simp [h2]) h0

theorem mem_adel (m : AttrMap) (k : Str) (p : Str × Str)
    (hp : p ∈ adel m k) : p ∈ m := by
  induction m with
  | nil => simp [adel] at hp
  | cons q qs ih =>
      obtain ⟨kq, vq⟩ := q
      by_cases hq : kq == k
      · simp only [adel, hq, if_true] at hp
        exact by simp [hp]
      · simp only [adel, hq, Bool.false_eq_true, if_false] at hp
        rcases List.mem_cons.mp hp with rfl | hp'
        · simp
        · simp [ih hp']

theorem keysNodupB_adel (m : AttrMap) (k : Str)
    (h : keysNodupB m = true) : keysNodupB (adel m k) = true := by
  induction m with
  | nil => simp [adel, keysNodupB]
  | cons p rest ih =>
      obtain ⟨k0, v0⟩ := p
      obtain ⟨hall, hrest⟩ := keysNodupB_cons_spec k0 v0 rest h
      by_cases h0 : k0 == k
      · simp only [adel, h0, if_true]
        exact hrest
      · simp only [adel, h0, Bool.false_eq_true, if_false, keysNodupB,
          Bool.and_eq_true, Bool.not_eq_true']
        refine ⟨?_, ih hrest⟩
        rw [List.any_eq_false]
        intro p hp
        simpa using hall p (mem_adel rest k p hp)

theorem presentStable_pass (eh : ErrorHandling) (r : AttrRule)
    (cmp : Comparator) (w : Str) (hsh : r.shape = .simple cmp)
    (hwlen : (truthy r.maxLength &&
      decide (w.length > r.maxLength.getD 0)) = false)
    (hm : matchComparator cmp w = true) : presentStable eh r w := by
  intro ch k m hlk
  unfold sanitizeTagAttributeValue
  dsimp only
  rw [hwlen]
  simp only [Bool.false_eq_true, if_false, hsh]
  unfold sanitizeTagAttributeSimpleValue
  rw [hm]
  simp

theorem presentStable_default (eh : ErrorHandling) (r : AttrRule)
    (cmp : Comparator) (d : Str) (hsh : r.shape = .simple cmp)
    (hslot : eh.attributeValue = some .applyDefaultValue)
    (hd : r.defaultValue = some d) (hdne : d ≠ [])
    (hdlen : (truthy r.maxLength &&
      decide (d.length > r.maxLength.getD 0)) = false) :
    presentStable eh r d := by
  intro ch k m hlk
  unfold sanitizeTagAttributeValue
  dsimp only
  rw [hdlen]
  simp only [Bool.false_eq_true, if_false, hsh]
  unfold sanitizeTagAttributeSimpleValue
  by_cases hm : matchComparator cmp d
  · rw [hm]
    simp
  · rw [Bool.not_eq_true] at hm
    rw [hm]
    simp only [Bool.false_eq_true, if_false]
    unfold handleTagAttributeValueError
    have hbe : (d == []) = false := by
      simpa using hdne
    simp only [hslot, hd, hbe, Bool.false_eq_true, if_false]
    rw [aset_self m k d hlk]

theorem handleTagAttributeValueError_absent (eh : ErrorHandling)
    (ch : List Node) (m m2 : AttrMap) (k : Str) (r : AttrRule)
    (h : handleTagAttributeValueError ch m k r eh.attributeValue =
      some (.cont m2))
    (habs : lookupStr m k = none) :
    (∃ d, r.defaultValue = some d ∧ d ≠ [] ∧
      eh.attributeValue = some .applyDefaultValue ∧ m2 = aset m k d) ∨
    (m2 = m ∧ absentStable eh r) := by
  cases hslot : eh.attributeValue with
  | none =>
      rw [hslot] at h
      simp [handleTagAttributeValueError, handleTagAttributeError,
        handleTagError] at h
  | some vm =>
      rw [hslot] at h
      cases vm with
      | applyDefaultValue =>
          simp only [handleTagAttributeValueError] at h
          cases hd : r.defaultValue with
          | some d =>
              rw [hd] at h
              by_cases hde : d == []
              · simp only [hde, if_true, Option.some.injEq,
                  AttrOutcome.cont.injEq] at h
                have hdeq : d = [] := by simpa using hde
                refine Or.inr ⟨?_, ?_⟩
                · rw [← h, adel_absent m k habs]
                · intro ch' k' m' habs'
                  simp only [handleTagAttributeValueError, hslot, hd, hde,
                    if_true, adel_absent m' k' habs']
              · simp only [hde, Bool.false_eq_true, if_false,
                  Option.some.injEq, AttrOutcome.cont.injEq] at h
                exact Or.inl ⟨d, rfl, by simpa using hde, rfl, by rw [← h]⟩
          | none =>
              rw [hd] at h
              simp only [Option.some.injEq, AttrOutcome.cont.injEq] at h
              refine Or.inr ⟨?_, ?_⟩
              · rw [← h, adel_absent m k habs]
              · intro ch' k' m' habs'
                simp only [handleTagAttributeValueError, hslot, hd,
                  adel_absent m' k' habs']
      | attrLevel am =>
          cases am with
          | discardAttribute =>
              simp only [handleTagAttributeValueError,
                handleTagAttributeError, Option.some.injEq,
                AttrOutcome.cont.injEq] at h
              refine Or.inr ⟨?_, ?_⟩
              · rw [← h, adel_absent m k habs]
              · intro ch' k' m' habs'
                simp only [handleTagAttributeValueError, hslot,
                  handleTagAttributeError, adel_absent m' k' habs']
          | tagLevel tm =>
              simp only [handleTagAttributeValueError,
                handleTagAttributeError] at h
              cases tm <;> simp [handleTagError] at h

theorem simpleValue_step (eh : ErrorHandling) (ch : List Node) (m m2 : AttrMap)
    (k w : Str) (r : AttrRule) (cmp : Comparator)
    (hsh : r.shape = .simple cmp)
    (hfit : ∀ d, r.defaultValue = some d →
      (truthy r.maxLength && decide (d.length > r.maxLength.getD 0)) = false)
    (hwlen : (truthy r.maxLength &&
      decide (w.length > r.maxLength.getD 0)) = false)
    (hlk : lookupStr m k = some w) (hnd : keysNodupB m = true)
    (h : sanitizeTagAttributeSimpleValue eh ch m k w r cmp =
      some (.cont m2)) :
    keysNodupB m2 = true ∧
    (∀ k', (k' == k) = false → lookupStr m2 k' = lookupStr m k') ∧
    ((∃ u, lookupStr m2 k = some u ∧ presentStable eh r u) ∨
      lookupStr m2 k = none) := by
  unfold sanitizeTagAttributeSimpleValue at h
  split at h
  · next hm =>
      simp only [Option.some.injEq, AttrOutcome.cont.injEq] at h
      subst h
      exact ⟨hnd, fun k' _ => rfl,
        Or.inl ⟨w, hlk, presentStable_pass eh r cmp w hsh hwlen hm⟩⟩
  · next hm =>
      rw [Bool.not_eq_true] at hm
      cases hslot : eh.attributeValue with
      | none =>
          rw [hslot] at h
          simp [handleTagAttributeValueError, handleTagAttributeError,
            handleTagError] at h
      | some vm =>
          rw [hslot] at h
          cases vm with
          | applyDefaultValue =>
              simp only [handleTagAttributeValueError] at h
              cases hd : r.defaultValue with
              | some d =>
                  rw [hd] at h
                  by_cases hde : d == []
                  · simp only [hde, if_true, Option.some.injEq,
                      AttrOutcome.cont.injEq] at h
                    subst h
                    exact ⟨keysNodupB_adel m k hnd,
                      fun k' hk' => lookupStr_adel_ne m k k' hk',
                      Or.inr (lookupStr_adel_self m k hnd)⟩
                  · simp only [hde, Bool.false_eq_true, if_false,
                      Option.some.injEq, AttrOutcome.cont.injEq] at h
                    subst h
                    refine ⟨keysNodupB_aset m k d hnd,
                      fun k' hk' => lookupStr_aset_ne m k k' d hk', ?_⟩
                    refine Or.inl ⟨d, lookupStr_aset m k d, ?_⟩
                    exact presentStable_default eh r cmp d hsh hslot hd
                      (by simpa using hde) (hfit d hd)
              | none =>
                  rw [hd] at h
                  simp only [Option.some.injEq, AttrOutcome.cont.injEq] at h
                  subst h
                  exact ⟨keysNodupB_adel m k hnd,
                    fun k' hk' => lookupStr_adel_ne m k k' hk',
                    Or.inr (lookupStr_adel_self m k hnd)⟩
          | attrLevel am =>
              cases am with
              | discardAttribute =>
                  simp only [handleTagAttributeValueError,
                    handleTagAttributeError, Option.some.injEq,
                    AttrOutcome.cont.injEq] at h
                  subst h
                  exact ⟨keysNodupB_adel m k hnd,
                    fun k' hk' => lookupStr_adel_ne m k k' hk',
                    Or.inr (lookupStr_adel_self m k hnd)⟩
              | tagLevel tm =>
                  simp only [handleTagAttributeValueError,
                    handleTagAttributeError] at h
                  cases tm <;> simp [handleTagError] at h

theorem valueStep_simple (eh : ErrorHandling) (ch : List Node) (m m2 : AttrMap)
    (k v : Str) (r : AttrRule) (cmp : Comparator)
    (hsh : r.shape = .simple cmp)
    (hfit : ∀ d, r.defaultValue = some d →
      (truthy r.maxLength && decide (d.length > r.maxLength.getD 0)) = false)
    (hlk : lookupStr m k = some v) (hnd : keysNodupB m = true)
    (h : sanitizeTagAttributeValue eh ch m k v r = some (.cont m2)) :
    keysNodupB m2 = true ∧
    (∀ k', (k' == k) = false → lookupStr m2 k' = lookupStr m k') ∧
    ((∃ u, lookupStr m2 k = some u ∧ presentStable eh r u) ∨
      lookupStr m2 k = none) := by
  unfold sanitizeTagAttributeValue at h
  dsimp only at h
  split at h
  · -- value too long
    next hcond =>
      obtain ⟨L, hL, hL0⟩ : ∃ L, r.maxLength = some L ∧ L ≠ 0 := by
        rw [Bool.and_eq_true] at hcond
        cases hml : r.maxLength with
        | none => rw [hml] at hcond; simp [truthy] at hcond
        | some L =>
            rw [hml] at hcond
            exact ⟨L, rfl, by simpa [truthy] using hcond.1⟩
      have hvlen : v.length > L := by
        rw [Bool.and_eq_true] at hcond
        have := of_decide_eq_true hcond.2
        rw [hL] at this
        simpa using this
      have hvne : v ≠ [] := by
        intro hv
        rw [hv] at hvlen
        simp at hvlen
      unfold handleTagAttributeValueTooLongError at h
      cases hslot : eh.attributeValueTooLong with
      | some vtl =>
          rw [hslot] at h
          cases vtl with
          | trimExcess =>
              simp only at h
              rw [hL] at h
              simp only [jsSlice] at h
              have htake : lookupStr (aset m k (v.take L)) k =
                  some (v.take L) := lookupStr_aset m k (v.take L)
              rw [htake] at h
              have htne : v.take L ≠ [] := by
                simp only [ne_eq, List.take_eq_nil_iff]
                push_neg
                exact ⟨hL0, hvne⟩
              split at h
              · next heq => simp at heq
              · next heq =>
                  simp only [Option.some.injEq] at heq
                  exact absurd heq htne
              · next v1 hne1 heq =>
                  rw [Option.some.injEq] at heq
                  subst heq
                  rw [hsh] at h
                  dsimp only at h
                  have hwlen1 : (truthy r.maxLength &&
                      decide ((v.take L).length > r.maxLength.getD 0)) =
                      false := by
                    have hlt : (v.take L).length = L := by
                      rw [List.length_take]
                      omega
                    rw [hL]
                    simp [truthy, hlt]
                  have hstep := simpleValue_step eh ch (aset m k (v.take L))
                    m2 k (v.take L) r cmp hsh hfit hwlen1 htake
                    (keysNodupB_aset m k (v.take L) hnd) h
                  obtain ⟨h1, h2, h3⟩ := hstep
                  refine ⟨h1, ?_, h3⟩
                  intro k' hk'
                  rw [h2 k' hk', lookupStr_aset_ne m k k' (v.take L) hk']
          | valueLevel vm =>
              simp only at h
              -- the cascaded attribute-value handler ran on the original map
              cases hres : handleTagAttributeValueError ch m k r (some vm) with
              | none => rw [hres] at h; simp at h
              | some o =>
                  rw [hres] at h
                  cases o with
                  | gone repl => simp at h
                  | cont mt =>
                      simp only at h
                      cases vm with
                      | applyDefaultValue =>
                          simp only [handleTagAttributeValueError] at hres
                          cases hd : r.defaultValue with
                          | some d =>
                              rw [hd] at hres
                              by_cases hde : d == []
                              · simp only [hde, if_true, Option.some.injEq,
                                  AttrOutcome.cont.injEq] at hres
                                subst hres
                                rw [lookupStr_adel_self m k hnd] at h
                                simp only [Option.some.injEq,
                                  AttrOutcome.cont.injEq] at h
                                subst h
                                exact ⟨keysNodupB_adel m k hnd,
                                  fun k' hk' => lookupStr_adel_ne m k k' hk',
                                  Or.inr (lookupStr_adel_self m k hnd)⟩
                              · simp only [hde, Bool.false_eq_true, if_false,
                                  Option.some.injEq,
                                  AttrOutcome.cont.injEq] at hres
                                subst hres
                                split at h
                                · next heq =>
                                    rw [lookupStr_aset m k d] at heq
                                    cases heq
                                · next heq =>
                                    rw [lookupStr_aset m k d] at heq
                                    simp only [Option.some.injEq] at heq
                                    exact absurd heq.symm (by simpa using hde)
                                · next v1 hne1 heq =>
                                    rw [lookupStr_aset m k d,
                                      Option.some.injEq] at heq
                                    subst heq
                                    rw [hsh] at h
                                    dsimp only at h
                                    have hstep := simpleValue_step eh ch
                                      (aset m k d) m2 k d r cmp hsh
                                      hfit (hfit d hd) (lookupStr_aset m k d)
                                      (keysNodupB_aset m k d hnd) h
                                    obtain ⟨h1, h2, h3⟩ := hstep
                                    refine ⟨h1, ?_, h3⟩
                                    intro k' hk'
                                    rw [h2 k' hk',
                                      lookupStr_aset_ne m k k' d hk']
                          | none =>
                              rw [hd] at hres
                              simp only [Option.some.injEq,
                                AttrOutcome.cont.injEq] at hres
                              subst hres
                              rw [lookupStr_adel_self m k hnd] at h
                              simp only [Option.some.injEq,
                                AttrOutcome.cont.injEq] at h
                              subst h
                              exact ⟨keysNodupB_adel m k hnd,
                                fun k' hk' => lookupStr_adel_ne m k k' hk',
                                Or.inr (lookupStr_adel_self m k hnd)⟩
                      | attrLevel am =>
                          cases am with
                          | discardAttribute =>
                              simp only [handleTagAttributeValueError,
                                handleTagAttributeError, Option.some.injEq,
                                AttrOutcome.cont.injEq] at hres
                              subst hres
                              rw [lookupStr_adel_self m k hnd] at h
                              simp only [Option.some.injEq,
                                AttrOutcome.cont.injEq] at h
                              subst h
                              exact ⟨keysNodupB_adel m k hnd,
                                fun k' hk' => lookupStr_adel_ne m k k' hk',
                                Or.inr (lookupStr_adel_self m k hnd)⟩
                          | tagLevel tm =>
                              simp only [handleTagAttributeValueError,
                                handleTagAttributeError] at hres
                              cases tm <;> simp [handleTagError] at hres
      | none =>
          rw [hslot] at h
          simp [handleTagAttributeValueError, handleTagAttributeError,
            handleTagError] at h
  · -- value within bounds: direct dispatch
    next hcond =>
      rw [Bool.not_eq_true] at hcond
      rw [hsh] at h
      exact simpleValue_step eh ch m m2 k v r cmp hsh hfit hcond hlk hnd h

theorem lookupStr_isSome_of_mem_keys {α : Type} (m : List (Str × α)) (k : Str)
    (h : k ∈ m.map Prod.fst) : (lookupStr m k).isSome = true := by
  induction m with
  | nil => simp at h
  | cons p rest ih =>
      obtain ⟨k0, v0⟩ := p
      by_cases h0 : k0 == k
      · simp [lookupStr, h0]
      · simp only [List.map_cons, List.mem_cons] at h
        rcases h with rfl | h
        · simp at h0
        · simp only [lookupStr, h0, Bool.false_eq_true, if_false]
          exact ih h

theorem lookupStr_none_of_not_mem_keys {α : Type} (m : List (Str × α))
    (k : Str) (h : k ∉ m.map Prod.fst) : lookupStr m k = none := by
  induction m with
  | nil => rfl
  | cons p rest ih =>
      obtain ⟨k0, v0⟩ := p
      simp only [List.map_cons, List.mem_cons, not_or] at h
      have h0 : (k0 == k) = false := by
        simp only [beq_eq_false_iff_ne, ne_eq]
        exact fun hc => h.1 (by simp [hc])
      simp only [lookupStr, h0, Bool.false_eq_true, if_false]
      exact ih h.2

theorem nodup_keys_of_keysNodupB {α : Type} (m : List (Str × α))
    (h : keysNodupB m = true) : (m.map Prod.fst).Nodup := by
  induction m with
  | nil => simp
  | cons p rest ih =>
      obtain ⟨k0, v0⟩ := p
      obtain ⟨hall, hrest⟩ := keysNodupB_cons_spec k0 v0 rest h
      simp only [List.map_cons, List.nodup_cons]
      refine ⟨?_, ih hrest⟩
      intro hc
      obtain ⟨q, hq, hq2⟩ := List.mem_map.mp hc
      have := hall q hq
      rw [hq2] at this
      simp at this

theorem lookupStr_of_mem_nodup {α : Type} (rs : List (Str × α)) (k : Str)
    (r : α) (hnd : keysNodupB rs = true) (h : (k, r) ∈ rs) :
    lookupStr rs k = some r := by
  induction rs with
  | nil => simp at h
  | cons p rest ih =>
      obtain ⟨k0, v0⟩ := p
      obtain ⟨hall, hrest⟩ := keysNodupB_cons_spec k0 v0 rest hnd
      rcases List.mem_cons.mp h with heq | hmem
      · cases heq
        simp [lookupStr]
      · have hne : (k0 == k) = false := by
          have h1 := hall (k, r) hmem
          simp only [beq_eq_false_iff_ne, ne_eq] at h1 ⊢
          exact fun hc => h1 hc.symm
        simp only [lookupStr, hne, Bool.false_eq_true, if_false]
        exact ih hrest hmem

theorem sanitizeTagAttribute_skip (ch : List Node) (m : AttrMap) (k : Str)
    (rule : Option AttrRule) (mode : Option AttrErrorMode) (a : AttrMap)
    (h : sanitizeTagAttribute ch m k rule mode = some (.skip a)) :
    rule = none ∧ a = adel m k := by
  cases rule with
  | some r => simp [sanitizeTagAttribute] at h
  | none =>
      refine ⟨rfl, ?_⟩
      simp only [sanitizeTagAttribute] at h
      cases mode with
      | none =>
          simp [handleTagAttributeError, handleTagError] at h
      | some am =>
          cases am with
          | discardAttribute =>
              simp only [handleTagAttributeError, Option.some.injEq] at h
              cases h
              rfl
          | tagLevel tm =>
              simp only [handleTagAttributeError] at h
              cases tm <;> simp [handleTagError] at h

theorem sanitizeTagAttribute_proceed (ch : List Node) (m : AttrMap) (k : Str)
    (rule : Option AttrRule) (mode : Option AttrErrorMode)
    (h : sanitizeTagAttribute ch m k rule mode = some .proceed) :
    rule.isSome = true := by
  cases rule with
  | some r => rfl
  | none =>
      simp only [sanitizeTagAttribute] at h
      cases hh : handleTagAttributeError ch m k mode with
      | none => rw [hh] at h; simp at h
      | some o => rw [hh] at h; cases o <;> simp at h

theorem sanitizeAttributesLoop_stable (eh : ErrorHandling) (ch : List Node)
    (rules : Option (List (Str × AttrRule)))
    (hr : ∀ k r, lookupAttrRule rules k = some r →
      (∃ cmp, r.shape = .simple cmp) ∧
      (∀ d, r.defaultValue = some d →
        (truthy r.maxLength && decide (d.length > r.maxLength.getD 0)) = false)) :
    ∀ (keys : List Str) (m m2 : AttrMap),
      keysNodupB m = true →
      keys.Nodup →
      (∀ k ∈ keys, (lookupStr m k).isSome = true) →
      sanitizeAttributesLoop eh ch rules keys m = some (.cont m2) →
      keysNodupB m2 = true ∧
      (∀ k, k ∉ keys → lookupStr m2 k = lookupStr m k) ∧
      (∀ k ∈ keys, (∃ u r, lookupStr m2 k = some u ∧
          lookupAttrRule rules k = some r ∧ presentStable eh r u) ∨
        lookupStr m2 k = none) := by
  intro keys
  induction keys with
  | nil =>
      intro m m2 hnd _ _ h
      simp only [sanitizeAttributesLoop, Option.some.injEq,
        AttrOutcome.cont.injEq] at h
      subst h
      exact ⟨hnd, fun k _ => rfl, fun k hk => absurd hk (by simp)⟩
  | cons k rest ih =>
      intro m m2 hnd hkeys hsome h
      have hknr : k ∉ rest := (List.nodup_cons.mp hkeys).1
      have hrestnd : rest.Nodup := (List.nodup_cons.mp hkeys).2
      simp only [sanitizeAttributesLoop] at h
      split at h
      · simp at h
      · simp at h
      · next a heq =>
          obtain ⟨hrule, ha⟩ :=
            sanitizeTagAttribute_skip ch m k _ eh.attr a heq
          subst ha
          have hnd1 : keysNodupB (adel m k) = true := keysNodupB_adel m k hnd
          have hsome1 : ∀ k' ∈ rest, (lookupStr (adel m k) k').isSome = true := by
            intro k' hk'
            have hne : (k' == k) = false := by
              simp only [beq_eq_false_iff_ne, ne_eq]
              exact fun hc => hknr (hc ▸ hk')
            rw [lookupStr_adel_ne m k k' hne]
            exact hsome k' (List.mem_cons_of_mem _ hk')
          obtain ⟨h1, h2, h3⟩ := ih (adel m k) m2 hnd1 hrestnd hsome1 h
          refine ⟨h1, ?_, ?_⟩
          · intro k' hk'
            have hnr : k' ∉ rest := fun hc => hk' (List.mem_cons_of_mem _ hc)
            have hne : (k' == k) = false := by
              simp only [beq_eq_false_iff_ne, ne_eq]
              exact fun hc => hk' (by simp [hc])
            rw [h2 k' hnr, lookupStr_adel_ne m k k' hne]
          · intro k' hk'
            rcases List.mem_cons.mp hk' with rfl | hmem
            · right
              rw [h2 k' hknr]
              exact lookupStr_adel_self m k' hnd
            · exact h3 k' hmem
      · next heq =>
          split at h
          · simp at h
          · next r heqr =>
              split at h
              · simp at h
              · simp at h
              · next a heqv =>
                  have hks := hsome k (List.mem_cons_self k rest)
                  obtain ⟨v, hv⟩ := Option.isSome_iff_exists.mp hks
                  rw [hv, Option.getD_some] at heqv
                  obtain ⟨⟨cmp, hsh⟩, hfit⟩ := hr k r heqr
                  obtain ⟨hnd1, hframe1, hslot1⟩ :=
                    valueStep_simple eh ch m a k v r cmp hsh hfit hv hnd heqv
                  have hsome1 : ∀ k' ∈ rest,
                      (lookupStr a k').isSome = true := by
                    intro k' hk'
                    have hne : (k' == k) = false := by
                      simp only [beq_eq_false_iff_ne, ne_eq]
                      exact fun hc => hknr (hc ▸ hk')
                    rw [hframe1 k' hne]
                    exact hsome k' (List.mem_cons_of_mem _ hk')
                  obtain ⟨h1, h2, h3⟩ := ih a m2 hnd1 hrestnd hsome1 h
                  refine ⟨h1, ?_, ?_⟩
                  · intro k' hk'
                    have hnr : k' ∉ rest :=
                      fun hc => hk' (List.mem_cons_of_mem _ hc)
                    have hne : (k' == k) = false := by
                      simp only [beq_eq_false_iff_ne, ne_eq]
                      exact fun hc => hk' (by simp [hc])
                    rw [h2 k' hnr, hframe1 k' hne]
                  · intro k' hk'
                    rcases List.mem_cons.mp hk' with rfl | hmem
                    · rcases hslot1 with ⟨u, hu, hps⟩ | habs
                      · exact Or.inl ⟨u, r, by rw [h2 k' hknr]; exact hu,
                          heqr, hps⟩
                      · right
                        rw [h2 k' hknr]
                        exact habs
                    · exact h3 k' hmem

theorem lookupStr_aset_self (m : AttrMap) (k v : Str) :
    lookupStr (aset m k v) k = some v := by
  induction m with
  | nil => simp [aset, lookupStr]
  | cons p rest ih =>
      obtain ⟨k0, v0⟩ := p
      by_cases h0 : (k0 == k) = true
      · simp [aset, lookupStr, h0]
      · have h0f : (k0 == k) = false := by
          cases hc : (k0 == k)
          · rfl
          · exact absurd hc h0
        simp only [aset, h0f, Bool.false_eq_true, if_false, lookupStr]
        exact ih

theorem attrRuleStable_spec (r : AttrRule) (h : attrRuleStable r = true) :
    (∃ cmp, r.shape = .simple cmp) ∧
    (∀ d, r.defaultValue = some d →
      (truthy r.maxLength && decide (d.length > r.maxLength.getD 0)) = false) := by
  unfold attrRuleStable at h
  rw [Bool.and_eq_true] at h
  constructor
  · cases hs : r.shape with
    | simple cmp => exact ⟨cmp, rfl⟩
    | set d vs =>
        rw [hs] at h
        simp at h
    | record ps es vs =>
        rw [hs] at h
        simp at h
  · intro d hd
    have h2 := h.2
    rw [hd] at h2
    cases ht : truthy r.maxLength with
    | false => simp
    | true =>
        simp only [ht, if_true, decide_eq_true_eq] at h2
        simp only [Bool.true_and, decide_eq_false_iff_not, not_lt]
        exact h2

theorem enforceRequiredLoop_stable (eh : ErrorHandling) (ch : List Node) :
    ∀ (rs : List (Str × AttrRule)) (m m2 : AttrMap),
      keysNodupB rs = true →
      (∀ p ∈ rs, attrRuleStable p.2 = true) →
      keysNodupB m = true →
      enforceRequiredLoop eh ch rs m = some (.cont m2) →
      keysNodupB m2 = true ∧
      (∀ k, lookupStr m2 k = lookupStr m k ∨
        (lookupStr m k = none ∧ ∃ r u, lookupStr rs k = some r ∧
          lookupStr m2 k = some u ∧ presentStable eh r u)) ∧
      (∀ p ∈ rs, (p.1 == starStr) = false → p.2.required = true →
        lookupStr m2 p.1 = none → absentStable eh p.2) := by
  intro rs
  induction rs with
  | nil =>
      intro m m2 _ _ hnd h
      simp only [enforceRequiredLoop, Option.some.injEq,
        AttrOutcome.cont.injEq] at h
      subst h
      exact ⟨hnd, fun k => Or.inl rfl, by simp⟩
  | cons p rest ih =>
      intro m m2 hrnd hstab hnd h
      obtain ⟨k0, r0⟩ := p
      obtain ⟨hall, hrestnd⟩ := keysNodupB_cons_spec k0 r0 rest hrnd
      have hstab0 : attrRuleStable r0 = true :=
        hstab (k0, r0) (List.mem_cons_self _ _)
      have hstabrest : ∀ p ∈ rest, attrRuleStable p.2 = true :=
        fun p hp => hstab p (List.mem_cons_of_mem _ hp)
      simp only [enforceRequiredLoop] at h
      split at h
      · next hstar =>
          obtain ⟨h1, h2, h3⟩ := ih m m2 hrestnd hstabrest hnd h
          refine ⟨h1, ?_, ?_⟩
          · intro k
            rcases h2 k with heq | ⟨habs, r, u, hlk, hlk2, hps⟩
            · exact Or.inl heq
            · have hkmem := lookupStr_some_mem rest k r hlk
              obtain ⟨q, hq, hqk⟩ := hkmem
              have hne : (k0 == k) = false := by
                have hq1 := hall q hq
                have : q.1 = k := by simpa using hqk
                rw [this] at hq1
                simp only [beq_eq_false_iff_ne, ne_eq] at hq1 ⊢
                exact fun hc => hq1 hc.symm
              refine Or.inr ⟨habs, r, u, ?_, hlk2, hps⟩
              simp only [lookupStr, hne, Bool.false_eq_true, if_false]
              exact hlk
          · intro p hp hpstar hpreq hpabs
            rcases List.mem_cons.mp hp with rfl | hmem
            · exact absurd hstar (by simp [hpstar])
            · exact h3 p hmem hpstar hpreq hpabs
      · next hstar =>
          split at h
          · next hreqabs =>
              split at h
              · simp at h
              · simp at h
              · next m1 heqh =>
                  have habs0 : lookupStr m k0 = none := by
                    rw [Bool.and_eq_true] at hreqabs
                    have := hreqabs.2
                    simpa [Option.isNone_iff_eq_none] using this
                  rcases handleTagAttributeValueError_absent eh ch m m1 k0 r0
                      heqh habs0 with
                    ⟨d, hd, hdne, hslot, hm1⟩ | ⟨hm1, habstab⟩
                  · subst hm1
                    obtain ⟨⟨cmp, hsh⟩, hfit⟩ := attrRuleStable_spec r0 hstab0
                    have hps : presentStable eh r0 d :=
                      presentStable_default eh r0 cmp d hsh hslot hd hdne
                        (hfit d hd)
                    have hnd1 : keysNodupB (aset m k0 d) = true :=
                      keysNodupB_aset m k0 d hnd
                    obtain ⟨h1, h2, h3⟩ := ih (aset m k0 d) m2 hrestnd
                      hstabrest hnd1 h
                    have hm2k0 : lookupStr m2 k0 = some d := by
                      rcases h2 k0 with heq | ⟨habs, _, _, _, _, _⟩
                      · rw [heq]
                        exact lookupStr_aset_self m k0 d
                      · rw [lookupStr_aset_self m k0 d] at habs
                        exact absurd habs (by simp)
                    refine ⟨h1, ?_, ?_⟩
                    · intro k
                      by_cases hk : (k0 == k) = true
                      · have hkk : k0 = k := by simpa using hk
                        subst hkk
                        refine Or.inr ⟨habs0, r0, d, ?_, hm2k0, hps⟩
                        simp [lookupStr]
                      · have hkf : (k0 == k) = false := by
                          cases hc : (k0 == k)
                          · rfl
                          · exact absurd hc hk
                        have hkf' : (k == k0) = false := by
                          simp only [beq_eq_false_iff_ne, ne_eq] at hkf ⊢
                          exact fun hc => hkf hc.symm
                        rcases h2 k with heq | ⟨habs, r, u, hlk, hlk2, hps2⟩
                        · rw [lookupStr_aset_ne m k0 k d hkf'] at heq
                          exact Or.inl heq
                        · rw [lookupStr_aset_ne m k0 k d hkf'] at habs
                          refine Or.inr ⟨habs, r, u, ?_, hlk2, hps2⟩
                          simp only [lookupStr, hkf, Bool.false_eq_true,
                            if_false]
                          exact hlk
                    · intro p hp hpstar hpreq hpabs
                      rcases List.mem_cons.mp hp with rfl | hmem
                      · exact absurd hm2k0 (by simp [hpabs])
                      · exact h3 p hmem hpstar hpreq hpabs
                  · rw [hm1] at h
                    obtain ⟨h1, h2, h3⟩ := ih m m2 hrestnd hstabrest hnd h
                    refine ⟨h1, ?_, ?_⟩
                    · intro k
                      rcases h2 k with heq | ⟨habs, r, u, hlk, hlk2, hps⟩
                      · exact Or.inl heq
                      · obtain ⟨q, hq, hqk⟩ := lookupStr_some_mem rest k r hlk
                        have hne : (k0 == k) = false := by
                          have hq1 := hall q hq
                          have : q.1 = k := by simpa using hqk
                          rw [this] at hq1
                          simp only [beq_eq_false_iff_ne, ne_eq] at hq1 ⊢
                          exact fun hc => hq1 hc.symm
                        refine Or.inr ⟨habs, r, u, ?_, hlk2, hps⟩
                        simp only [lookupStr, hne, Bool.false_eq_true, if_false]
                        exact hlk
                    · intro p hp hpstar hpreq hpabs
                      rcases List.mem_cons.mp hp with rfl | hmem
                      · exact habstab
                      · exact h3 p hmem hpstar hpreq hpabs
          · next hreqabs =>
              obtain ⟨h1, h2, h3⟩ := ih m m2 hrestnd hstabrest hnd h
              refine ⟨h1, ?_, ?_⟩
              · intro k
                rcases h2 k with heq | ⟨habs, r, u, hlk, hlk2, hps⟩
                · exact Or.inl heq
                · obtain ⟨q, hq, hqk⟩ := lookupStr_some_mem rest k r hlk
                  have hne : (k0 == k) = false := by
                    have hq1 := hall q hq
                    have : q.1 = k := by simpa using hqk
                    rw [this] at hq1
                    simp only [beq_eq_false_iff_ne, ne_eq] at hq1 ⊢
                    exact fun hc => hq1 hc.symm
                  refine Or.inr ⟨habs, r, u, ?_, hlk2, hps⟩
                  simp only [lookupStr, hne, Bool.false_eq_true, if_false]
                  exact hlk
              · intro p hp hpstar hpreq hpabs
                rcases List.mem_cons.mp hp with rfl | hmem
                · have hpres : (lookupStr m k0).isSome = true := by
                    by_cases hc : (lookupStr m k0).isSome = true
                    · exact hc
                    · exfalso
                      apply hreqabs
                      rw [Bool.and_eq_true]
                      refine ⟨hpreq, ?_⟩
                      simp only [Option.isNone_iff_eq_none]
                      cases hl : lookupStr m k0
                      · rfl
                      · rw [hl] at hc
                        simp at hc
                  obtain ⟨u, hu⟩ := Option.isSome_iff_exists.mp hpres
                  rcases h2 k0 with heq | ⟨habs, _, _, _, _, _⟩
                  · rw [heq, hu] at hpabs
                    simp at hpabs
                  · rw [hu] at habs
                    simp at habs
                · exact h3 p hmem hpstar hpreq hpabs

theorem lookupStr_some_mem_pair {α : Type} (m : List (Str × α)) (k : Str)
    (w : α) (h : lookupStr m k = some w) : ∃ q ∈ m, q.2 = w := by
  induction m with
  | nil => simp [lookupStr] at h
  | cons q qs ih =>
      obtain ⟨k0, v0⟩ := q
      by_cases h0 : (k0 == k) = true
      · simp only [lookupStr, h0, if_true, Option.some.injEq] at h
        exact ⟨(k0, v0), List.mem_cons_self _ _, h⟩
      · have h0f : (k0 == k) = false := by
          cases hc : (k0 == k)
          · rfl
          · exact absurd hc h0
        simp only [lookupStr, h0f, Bool.false_eq_true, if_false] at h
        obtain ⟨q, hq, hq2⟩ := ih h
        exact ⟨q, List.mem_cons_of_mem _ hq, hq2⟩

theorem lookupAttrRule_mem (rs : List (Str × AttrRule)) (k : Str) (r : AttrRule)
    (h : lookupAttrRule (some rs) k = some r) : ∃ q ∈ rs, q.2 = r := by
  simp only [lookupAttrRule] at h
  cases hl : lookupStr rs k with
  | some r0 =>
      rw [hl] at h
      rw [Option.some.injEq] at h
      subst h
      exact lookupStr_some_mem_pair rs k r0 hl
  | none =>
      rw [hl] at h
      exact lookupStr_some_mem_pair rs starStr r h

theorem sanitizeAttributes_stable_post (eh : ErrorHandling) (ch : List Node)
    (rules : Option (List (Str × AttrRule))) (m m2 : AttrMap)
    (hrs : ∀ rs, rules = some rs →
      keysNodupB rs = true ∧ ∀ p ∈ rs, attrRuleStable p.2 = true)
    (hnd : keysNodupB m = true)
    (h : sanitizeAttributes eh ch rules m = some (.cont m2)) :
    mapStable eh rules m2 := by
  have hr : ∀ k r, lookupAttrRule rules k = some r →
      (∃ cmp, r.shape = .simple cmp) ∧
      (∀ d, r.defaultValue = some d →
        (truthy r.maxLength &&
          decide (d.length > r.maxLength.getD 0)) = false) := by
    intro k r hkr
    cases rules with
    | none => simp [lookupAttrRule] at hkr
    | some rs =>
        obtain ⟨hrnd, hrstab⟩ := hrs rs rfl
        obtain ⟨q, hq, hq2⟩ := lookupAttrRule_mem rs k r hkr
        exact attrRuleStable_spec r (hq2 ▸ hrstab q hq)
  simp only [sanitizeAttributes] at h
  split at h
  · next hEmp =>
      have hm : m = [] := by
        cases m with
        | nil => rfl
        | cons p rest => simp at hEmp
      subst hm
      cases rules with
      | none =>
          simp only [enforceRequiredAttributes, Option.some.injEq,
            AttrOutcome.cont.injEq] at h
          subst h
          refine ⟨rfl, ?_, ?_⟩
          · intro k u hk
            simp [lookupStr] at hk
          · intro rs hrs'
            exact absurd hrs' (by simp)
      | some rs =>
          obtain ⟨hrnd, hrstab⟩ := hrs rs rfl
          simp only [enforceRequiredAttributes] at h
          obtain ⟨g1, g2, g3⟩ := enforceRequiredLoop_stable eh ch rs [] m2
            hrnd hrstab rfl h
          refine ⟨g1, ?_, ?_⟩
          · intro k u hk
            rcases g2 k with heq | ⟨habs, r, u', hlkr, hlk2, hps⟩
            · rw [heq] at hk
              simp [lookupStr] at hk
            · rw [hk] at hlk2
              rw [Option.some.injEq] at hlk2
              subst hlk2
              refine ⟨r, ?_, hps⟩
              simp only [lookupAttrRule, hlkr]
          · intro rs' hrs' p hp hpstar hpreq hpabs
            rw [Option.some.injEq] at hrs'
            subst hrs'
            exact g3 p hp hpstar hpreq hpabs
  · next hEmp =>
      split at h
      · simp at h
      · simp at h
      · next a heqL =>
          obtain ⟨h1, h2, h3⟩ := sanitizeAttributesLoop_stable eh ch rules hr
            (m.map Prod.fst) m a hnd (nodup_keys_of_keysNodupB m hnd)
            (fun k hk => lookupStr_isSome_of_mem_keys m k hk) heqL
          have haPresent : ∀ k u, lookupStr a k = some u →
              ∃ r, lookupAttrRule rules k = some r ∧ presentStable eh r u := by
            intro k u hk
            by_cases hkm : k ∈ m.map Prod.fst
            · rcases h3 k hkm with ⟨u', r, hu', hrul, hps⟩ | habs
              · rw [hk] at hu'
                rw [Option.some.injEq] at hu'
                subst hu'
                exact ⟨r, hrul, hps⟩
              · rw [hk] at habs
                exact absurd habs (by simp)
            · rw [h2 k hkm, lookupStr_none_of_not_mem_keys m k hkm] at hk
              exact absurd hk (by simp)
          cases rules with
          | none =>
              simp only [enforceRequiredAttributes, Option.some.injEq,
                AttrOutcome.cont.injEq] at h
              subst h
              refine ⟨h1, haPresent, ?_⟩
              intro rs hrs'
              exact absurd hrs' (by simp)
          | some rs =>
              obtain ⟨hrnd, hrstab⟩ := hrs rs rfl
              simp only [enforceRequiredAttributes] at h
              obtain ⟨g1, g2, g3⟩ := enforceRequiredLoop_stable eh ch rs a m2
                hrnd hrstab h1 h
              refine ⟨g1, ?_, ?_⟩
              · intro k u hk
                rcases g2 k with heq | ⟨habs, r, u', hlkr, hlk2, hps⟩
                · rw [heq] at hk
                  exact haPresent k u hk
                · rw [hk] at hlk2
                  rw [Option.some.injEq] at hlk2
                  subst hlk2
                  refine ⟨r, ?_, hps⟩
                  simp only [lookupAttrRule, hlkr]
              · intro rs' hrs' p hp hpstar hpreq hpabs
                rw [Option.some.injEq] at hrs'
                subst hrs'
                exact g3 p hp hpstar hpreq hpabs

theorem sanitizeAttributesLoop_fixpoint (eh : ErrorHandling) (ch : List Node)
    (rules : Option (List (Str × AttrRule))) :
    ∀ (keys : List Str) (m : AttrMap),
      (∀ k ∈ keys, ∃ u, lookupStr m k = some u ∧
        ∃ r, lookupAttrRule rules k = some r ∧ presentStable eh r u) →
      sanitizeAttributesLoop eh ch rules keys m = some (.cont m) := by
  intro keys
  induction keys with
  | nil => intro m _; rfl
  | cons k rest ih =>
      intro m hstab
      obtain ⟨u, hu, r, hrul, hps⟩ := hstab k (List.mem_cons_self _ _)
      have hval : sanitizeTagAttributeValue eh ch m k u r = some (.cont m) :=
        hps ch k m hu
      simp only [sanitizeAttributesLoop, hu, Option.getD_some, hrul,
        sanitizeTagAttribute, hval]
      exact ih m (fun k' hk' => hstab k' (List.mem_cons_of_mem _ hk'))

theorem enforceRequiredLoop_fixpoint (eh : ErrorHandling) (ch : List Node) :
    ∀ (rs : List (Str × AttrRule)) (m : AttrMap),
      (∀ p ∈ rs, (p.1 == starStr) = false → p.2.required = true →
        lookupStr m p.1 = none → absentStable eh p.2) →
      enforceRequiredLoop eh ch rs m = some (.cont m) := by
  intro rs
  induction rs with
  | nil => intro m _; rfl
  | cons p rest ih =>
      intro m hstab
      obtain ⟨k0, r0⟩ := p
      have hrest : ∀ p ∈ rest, (p.1 == starStr) = false →
          p.2.required = true → lookupStr m p.1 = none →
          absentStable eh p.2 :=
        fun p hp => hstab p (List.mem_cons_of_mem _ hp)
      simp only [enforceRequiredLoop]
      by_cases hstar : (k0 == starStr) = true
      · rw [if_pos hstar]
        exact ih m hrest
      · have hstarf : (k0 == starStr) = false := by
          cases hc : (k0 == starStr)
          · rfl
          · exact absurd hc hstar
        rw [if_neg (by simp [hstarf])]
        by_cases hcond : (r0.required && (lookupStr m k0).isNone) = true
        · rw [if_pos hcond]
          rw [Bool.and_eq_true] at hcond
          have habs : lookupStr m k0 = none := by
            have := hcond.2
            simpa [Option.isNone_iff_eq_none] using this
          have habst : absentStable eh r0 :=
            hstab (k0, r0) (List.mem_cons_self _ _) hstarf hcond.1 habs
          rw [habst ch k0 m habs]
          exact ih m hrest
        · rw [if_neg hcond]
          exact ih m hrest

theorem sanitizeAttributes_fixpoint (eh : ErrorHandling) (ch : List Node)
    (rules : Option (List (Str × AttrRule))) (m : AttrMap)
    (hs : mapStable eh rules m) :
    sanitizeAttributes eh ch rules m = some (.cont m) := by
  obtain ⟨hnd, hpres, hreq⟩ := hs
  have henf : enforceRequiredAttributes eh ch rules m = some (.cont m) := by
    cases rules with
    | none => rfl
    | some rs =>
        simp only [enforceRequiredAttributes]
        exact enforceRequiredLoop_fixpoint eh ch rs m
          (fun p hp => hreq rs rfl p hp)
  simp only [sanitizeAttributes]
  split
  · exact henf
  · have hloop : sanitizeAttributesLoop eh ch rules (m.map Prod.fst) m =
        some (.cont m) := by
      refine sanitizeAttributesLoop_fixpoint eh ch rules (m.map Prod.fst) m ?_
      intro k hk
      obtain ⟨u, hu⟩ := Option.isSome_iff_exists.mp
        (lookupStr_isSome_of_mem_keys m k hk)
      obtain ⟨r, hrul, hps⟩ := hpres k u hu
      exact ⟨u, hu, r, hrul, hps⟩
    rw [hloop]
    exact henf

theorem nodesAttrsWf_drop (l : List Node) (n : Nat)
    (h : nodesAttrsWf l = true) : nodesAttrsWf (l.drop n) = true := by
  induction l generalizing n with
  | nil => simpa using h
  | cons a rest ih =>
      cases n with
      | zero => exact h
      | succ n =>
          rw [List.drop_succ_cons]
          simp only [nodesAttrsWf, Bool.and_eq_true] at h
          exact ih n h.2

theorem nodesAttrsWf_take (l : List Node) (n : Nat)
    (h : nodesAttrsWf l = true) : nodesAttrsWf (l.take n) = true := by
  induction l generalizing n with
  | nil => simpa using h
  | cons a rest ih =>
      cases n with
      | zero => rfl
      | succ n =>
          rw [List.take_succ_cons]
          simp only [nodesAttrsWf, Bool.and_eq_true] at h ⊢
          exact ⟨h.1, ih n h.2⟩

theorem handleTagChildrenError_cont_wf (children : List Node)
    (maxChildren : Nat) (mode : Option TagChildrenErrorMode) (out : List Node)
    (h : handleTagChildrenError children maxChildren mode = some (.cont out))
    (hwf : nodesAttrsWf children = true) : nodesAttrsWf out = true := by
  unfold handleTagChildrenError at h
  cases mode with
  | none => simp at h
  | some m =>
      cases m <;> simp at h
      · rw [← h]
        exact nodesAttrsWf_drop children _ hwf
      · rw [← h]
        exact nodesAttrsWf_take children _ hwf

theorem simpleStablePolicy_spec (opts : SanitizerOptions)
    (hP : simpleStablePolicy opts = true) (t : Str) (rule : TagRule)
    (hlk : lookupStr opts.tags t = some rule) :
    ∀ rs, rule.attributes = some rs →
      keysNodupB rs = true ∧ ∀ p ∈ rs, attrRuleStable p.2 = true := by
  intro rs hrs
  obtain ⟨q, hq, hq2⟩ := lookupStr_some_mem_pair opts.tags t rule hlk
  unfold simpleStablePolicy at hP
  rw [List.all_eq_true] at hP
  have hqp := hP q hq
  rw [hq2, hrs] at hqp
  rw [Bool.and_eq_true, List.all_eq_true] at hqp
  exact ⟨hqp.1, fun p hp => hqp.2 p hp⟩

theorem walkList_idem (opts : SanitizerOptions)
    (hU : unwrapFree opts.errorHandling = true)
    (hP : simpleStablePolicy opts = true) :
    ∀ (n : Nat) (l : List Node) (st : SanitizerState) (out : List Node),
      sizeOf l ≤ n → nodesAttrsWf l = true →
      walkList opts l st = some out →
      walkList opts out st = some out := by
  obtain ⟨hft, hfa, hfv, hfl, hfs, hfr, hfm, hfd⟩ :=
    unwrapFree_spec opts.errorHandling hU
  intro n
  induction n with
  | zero =>
      intro l st out hsz
      cases l with
      | nil => simp at hsz
      | cons a b => simp at hsz
  | succ n ih =>
      intro l st out hsz hwf h
      cases l with
      | nil =>
          simp only [walkList, Option.some.injEq] at h
          subst h
          simp [walkList]
      | cons nd rest =>
          have hszrest : sizeOf rest ≤ n := by
            cases nd <;> simp only [List.cons.sizeOf_spec,
              Node.element.sizeOf_spec, Node.comment.sizeOf_spec,
              Node.text.sizeOf_spec] at hsz <;> omega
          simp only [nodesAttrsWf, Bool.and_eq_true] at hwf
          obtain ⟨hwfnd, hwfrest⟩ := hwf
          cases nd with
          | text s =>
              simp only [walkList] at h
              split at h
              · simp at h
              · next tail htail =>
                  simp only [Option.some.injEq] at h
                  subst h
                  have h2 := ih rest st tail hszrest hwfrest htail
                  simp [walkList, h2]
          | comment s =>
              simp only [walkList] at h
              split at h
              · next hpc =>
                  split at h
                  · simp at h
                  · next tail htail =>
                      simp only [Option.some.injEq] at h
                      subst h
                      have h2 := ih rest st tail hszrest hwfrest htail
                      simp [walkList, hpc, h2]
              · exact ih rest st out hszrest hwfrest h
          | element tag attribs children =>
              simp only [nodeAttrsWf, Bool.and_eq_true] at hwfnd
              obtain ⟨hwfattr, hwfch⟩ := hwfnd
              have hszch : sizeOf children ≤ n := by
                simp only [List.cons.sizeOf_spec, Node.element.sizeOf_spec]
                  at hsz
                omega
              simp only [walkList] at h
              split at h
              · split at h
                · simp at h
                · exact ih rest st out hszrest hwfrest h
              · next hcondT =>
                  rw [Bool.not_eq_true] at hcondT
                  split at h
                  · simp at h
                  · next repl heq =>
                      split at h
                      · simp at h
                      · next tail htail =>
                          simp only [Option.some.injEq] at h
                          have hrepl : repl = [] :=
                            sanitizeTag_inl _ _ _ _ heq hft
                          rw [hrepl, List.nil_append] at h
                          subst h
                          exact ih rest st tail hszrest hwfrest htail
                  · next rule heq =>
                      have hlook := sanitizeTag_inr _ _ _ _ heq
                      split at h
                      · simp at h
                      · next repl heqA =>
                          split at h
                          · simp at h
                          · next tail htail =>
                              simp only [Option.some.injEq] at h
                              have hrepl : repl = [] :=
                                sanitizeAttributes_gone _ _ _ _ _ heqA hU
                              rw [hrepl, List.nil_append] at h
                              subst h
                              exact ih rest st tail hszrest hwfrest htail
                      · next attribs1 heqA =>
                          split at h
                          · simp at h
                          · exact ih rest st out hszrest hwfrest h
                          · next children1 hCL =>
                              have hch1 : sizeOf children1 ≤ sizeOf children ∧
                                  children1.length ≤ children.length ∧
                                  (∀ c, rule.limits.children = some c →
                                    c ≠ 0 → children1.length ≤ c) ∧
                                  nodesAttrsWf children1 = true := by
                                split at hCL
                                · next hcondC =>
                                    obtain ⟨h1, h2⟩ :=
                                      handleTagChildrenError_cont_length _ _
                                        _ _ hCL
                                    refine ⟨handleTagChildrenError_sizeOf_le
                                      _ _ _ _ hCL, h1, ?_,
                                      handleTagChildrenError_cont_wf _ _ _ _
                                        hCL hwfch⟩
                                    intro c hc hc0
                                    rw [Bool.and_eq_true] at hcondC
                                    have hgt := of_decide_eq_true hcondC.2
                                    rw [hc] at hgt
                                    simp only [Option.getD_some] at hgt
                                    have := h2 (by rw [hc]; simpa using hgt)
                                    rw [hc] at this
                                    simpa using this
                                · next hcondC =>
                                    cases hCL
                                    refine ⟨Nat.le_refl _, Nat.le_refl _, ?_,
                                      hwfch⟩
                                    intro c hc hc0
                                    rw [Bool.not_eq_true,
                                      Bool.and_eq_false_iff] at hcondC
                                    rcases hcondC with hcondC | hcondC
                                    · rw [hc] at hcondC
                                      simp [truthy, hc0] at hcondC
                                    · have := of_decide_eq_false hcondC
                                      rw [hc] at this
                                      simpa using Nat.le_of_not_lt this
                              obtain ⟨hsz1, hlen1, hbound1, hwf1⟩ := hch1
                              split at h
                              · split at h
                                · simp at h
                                · exact ih rest st out hszrest hwfrest h
                              · next fs hNS =>
                                  split at h
                                  · simp at h
                                  · next kids hkids =>
                                      split at h
                                      · simp at h
                                      · next tail htail =>
                                          simp only [Option.some.injEq] at h
                                          subst h
                                          have hkids2 := ih children1 _ kids
                                            (Nat.le_trans hsz1 hszch)
                                            hwf1 hkids
                                          have htail2 := ih rest st tail
                                            hszrest hwfrest htail
                                          have hstab :=
                                            sanitizeAttributes_stable_post
                                              opts.errorHandling children
                                              rule.attributes attribs attribs1
                                              (simpleStablePolicy_spec opts hP
                                                tag rule hlook)
                                              hwfattr heqA
                                          have hfix :=
                                            sanitizeAttributes_fixpoint
                                              opts.errorHandling kids
                                              rule.attributes attribs1 hstab
                                          have hlenK : kids.length ≤
                                              children1.length :=
                                            (walkList_invariants opts hU
                                              (sizeOf children1) children1 _
                                              kids (Nat.le_refl _)
                                              hkids).2.1
                                          have hcl2 :
                                              (truthy rule.limits.children &&
                                              decide (kids.length >
                                                rule.limits.children.getD 0))
                                              = false := by
                                            cases hc : rule.limits.children
                                              with
                                            | none => simp [truthy]
                                            | some c =>
                                                by_cases hc0 : c = 0
                                                · subst hc0
                                                  simp [truthy]
                                                · have hb := hbound1 c hc hc0
                                                  simp only [truthy,
                                                    Option.getD_some]
                                                  have hnb :
                                                      ¬ (kids.length > c) :=
                                                    by omega
                                                  simp [hnb]
                                          simp only [walkList, hcondT,
                                            Bool.false_eq_true, if_false,
                                            hlook, sanitizeTag, hfix, hcl2,
                                            hNS, hkids2, htail2]
                                          split
                                          · next heql =>
                                              rw [hcl2] at heql
                                              simp at heql
                                          · next heql =>
                                              rw [hcl2] at heql
                                              simp at heql
                                          · next children1' heql =>
                                              rw [hcl2] at heql
                                              simp only [Bool.false_eq_true,
                                                if_false, Option.some.injEq,
                                                ChildrenOutcome.cont.injEq]
                                                at heql
                                              subst heql
                                              simp only [hkids2]

/-- Claim C2 (amended): `sanitizeHtml` is idempotent for non-throwing
policies, provided additionally that no error-handling slot is set to
`unwrapElement` (an unwrap splices children that the walker's sibling
snapshot never revisits, so a second run can remove more), that every
attribute rule is a simple-mode rule whose declared default fits its own
`maxLength`, and that the input carries parser-style duplicate-free
attribute maps: a successful run's output is reproduced exactly by a second
run. -/
theorem C2_idempotence_amended (opts : SanitizerOptions)
    (frag out : List Node)
    (hU : unwrapFree opts.errorHandling = true)
    (hP : simpleStablePolicy opts = true)
    (hwf : nodesAttrsWf frag = true)
    (h : sanitizeHtml opts frag = some out) :
    sanitizeHtml opts out = some out := by
  have key : ∀ (l out2 : List Node), nodesAttrsWf l = true →
      (∀ cv, opts.topLevelLimits.children = some cv → cv ≠ 0 →
        l.length ≤ cv) →
      walkList opts l ⟨0, []⟩ = some out2 →
      sanitizeHtml opts out2 = some out2 := by
    intro l out2 hwfl hbound hwalk
    have hidem := walkList_idem opts hU hP (sizeOf l) l ⟨0, []⟩ out2
      (Nat.le_refl _) hwfl hwalk
    have hlen := (walkList_invariants opts hU (sizeOf l) l ⟨0, []⟩ out2
      (Nat.le_refl _) hwalk).2.1
    cases out2 with
    | nil => simp [sanitizeHtml]
    | cons o1 orest =>
        have hcond2 : (truthy opts.topLevelLimits.children &&
            decide ((o1 :: orest).length >
              opts.topLevelLimits.children.getD 0)) = false := by
          cases hc : opts.topLevelLimits.children with
          | none => simp [truthy]
          | some cv =>
              by_cases hc0 : cv = 0
              · subst hc0
                simp [truthy]
              · have hb := hbound cv hc hc0
                simp only [Option.getD_some]
                have hd : decide ((o1 :: orest).length > cv) = false := by
                  simp only [decide_eq_false_iff_not, not_lt]
                  exact Nat.le_trans hlen hb
                rw [hd, Bool.and_false]
        simp only [sanitizeHtml, List.isEmpty_cons, Bool.false_eq_true,
          if_false, hcond2]
        exact hidem
  simp only [sanitizeHtml] at h
  split at h
  · rw [Option.some.injEq] at h
    subst h
    simp [sanitizeHtml]
  · split at h
    · next hcond =>
        split at h
        · simp at h
        · rw [Option.some.injEq] at h
          subst h
          simp [sanitizeHtml]
        · next frag1 hCLh =>
            have hwf1 : nodesAttrsWf frag1 = true :=
              handleTagChildrenError_cont_wf _ _ _ _ hCLh hwf
            have hb1 : ∀ cv, opts.topLevelLimits.children = some cv →
                cv ≠ 0 → frag1.length ≤ cv := by
              intro cv hc hc0
              obtain ⟨_, h2⟩ :=
                handleTagChildrenError_cont_length _ _ _ _ hCLh
              rw [Bool.and_eq_true] at hcond
              have hle := h2 (of_decide_eq_true hcond.2)
              rw [hc] at hle
              simpa using hle
            exact key frag1 out hwf1 hb1 h
    · next hcond =>
        have hb1 : ∀ cv, opts.topLevelLimits.children = some cv →
            cv ≠ 0 → frag.length ≤ cv := by
          intro cv hc hc0
          rw [Bool.not_eq_true, Bool.and_eq_false_iff] at hcond
          rcases hcond with hcond | hcond
          · rw [hc] at hcond
            simp [truthy, hc0] at hcond
          · have := of_decide_eq_false hcond
            rw [hc] at this
            simpa using Nat.le_of_not_lt this
        exact key frag out hwf hb1 h

/-- Counterexample to claim C2 as stated: under a policy with every
error-handling slot set to a non-throwing strategy (but the tag strategy set
to `unwrapElement`), one run of `sanitizeHtml` leaves the inner disallowed
element in place — the walker's sibling snapshot never revisits spliced
children — and a second run removes it, so the two runs differ. -/
theorem C2_counterexample :
    noThrow optsNoThrowUnwrap.errorHandling = true ∧
    sanitizeHtml optsNoThrowUnwrap fragNestedBad =
      some [Node.element tagBad [] [Node.text "x".toList]] ∧
    sanitizeHtml optsNoThrowUnwrap
      [Node.element tagBad [] [Node.text "x".toList]] =
      some [Node.text "x".toList] ∧
    ([Node.element tagBad [] [Node.text "x".toList]] : List Node) ≠
      [Node.text "x".toList] := by
  refine ⟨rfl, ?_, ?_, by simp⟩
  · simp [sanitizeHtml, fragNestedBad, optsNoThrowUnwrap, walkList,
      sanitizeTag, handleTagError, lookupStr, truthy, tagDiv, tagBad]
  · simp [sanitizeHtml, optsNoThrowUnwrap, walkList, sanitizeTag,
      handleTagError, lookupStr, truthy, tagDiv, tagBad]

/-- Witness for C2: a non-throwing, unwrap-free, simple-mode policy applied
to a `div` with one admissible and one unknown attribute; the first run
settles the tree and the second run, obtained through the amended theorem,
reproduces it exactly. -/
theorem C2_witness :
    unwrapFree optsStable.errorHandling = true ∧
    simpleStablePolicy optsStable = true ∧
    nodesAttrsWf fragDivAttrs = true ∧
    sanitizeHtml optsStable fragDivAttrs =
      some [Node.element tagDiv [(keyId, "a".toList)]
        [Node.text "t".toList]] ∧
    sanitizeHtml optsStable
      [Node.element tagDiv [(keyId, "a".toList)] [Node.text "t".toList]] =
      some [Node.element tagDiv [(keyId, "a".toList)]
        [Node.text "t".toList]] := by
  have hrun : sanitizeHtml optsStable fragDivAttrs =
      some [Node.element tagDiv [(keyId, "a".toList)]
        [Node.text "t".toList]] := by
    simp [sanitizeHtml, fragDivAttrs, optsStable, walkList, sanitizeTag,
      handleTagError, lookupStr, truthy, tagDiv, tagScript, keyId,
      tagRuleStable, ruleAnySimple, starStr, sanitizeAttributes,
      sanitizeAttributesLoop, sanitizeTagAttribute, lookupAttrRule,
      sanitizeTagAttributeValue, sanitizeTagAttributeSimpleValue,
      matchComparator, handleTagAttributeError, adel,
      enforceRequiredAttributes, enforceRequiredLoop, nestingScanRev]
  exact ⟨rfl, rfl, rfl, hrun,
    C2_idempotence_amended optsStable fragDivAttrs _ rfl rfl rfl hrun⟩
